import Mathlib

/-!
# Verification of the mini crossword variant generator

A shallow embedding of `scripts/build_mini_crossword_variants.py` in Lean 4,
together with theorems settling the specification claims about it.

Modelling conventions:
* Python 32-bit-wrapping integer arithmetic is `Nat` arithmetic with explicit
  `&&& 0xFFFFFFFF` masks, exactly as in the source.
* The float values returned by the PRNG are dyadic rationals with numerator
  below `2 ^ 32`; all float operations performed on them in the source
  (division by `4294967296`, multiplication by a small list index, `int`
  truncation) are exact in binary64, so they are modelled in `ℚ` / `ℕ`
  without loss.
* Python `set` objects are modelled as lists: every observation the source
  makes of a set (membership, emptiness, `sorted(...)`) is order-insensitive,
  so a list with the same elements is an exact model.
* Python dictionaries indexed by keys that are always present are modelled
  as total functions.
-/

namespace MiniCrossword

/-- Words are Python strings (uppercase ASCII answers). -/
abbrev Word := String

/-! ## Constants (lines 17-22 of the source) -/

def TARGET_VARIANTS : ℕ := 400
def MIN_REQUIRED_VARIANTS : ℕ := 360
def MAX_ATTEMPTS : ℕ := 25000
def MAX_CANDIDATES_PER_SLOT : ℕ := 180
def THEMED_SLOT_MIN : ℕ := 1
def THEMED_SLOT_MAX : ℕ := 3

/-! ## `mulberry32` (source lines 25-38)

`mulberry32(seed)` captures `t = seed & 0xFFFFFFFF` and returns a closure
`rand` that first advances `t` and then hashes it to a float in `[0,1)`.
We split the closure into the state step `randStep` and the output
transform `mulberryOut` applied to the post-step state. -/

/-- `t = (t + 0x6D2B79F5) & 0xFFFFFFFF` (source line 30). -/
def randStep (t : ℕ) : ℕ := (t + 0x6D2B79F5) &&& 0xFFFFFFFF

/-- The output hash of `rand` (source lines 31-36), producing the numerator
of the returned float `... / 4294967296`. -/
def mulberryOut (t : ℕ) : ℕ :=
  let z := t
  let z := (z ^^^ (z >>> 15)) * (z ||| 1)
  let z := z &&& 0xFFFFFFFF
  let z := z ^^^ (z + ((z ^^^ (z >>> 7)) * (z ||| 61) &&& 0xFFFFFFFF))
  let z := z &&& 0xFFFFFFFF
  (z ^^^ (z >>> 14)) &&& 0xFFFFFFFF

/-- The PRNG state after `n` calls to `rand`: `mulberryState seed 0` is the
captured initial state `seed & 0xFFFFFFFF`, and each call advances it by
`randStep` before producing output. -/
def mulberryState (seed : ℕ) : ℕ → ℕ
  | 0 => seed &&& 0xFFFFFFFF
  | n + 1 => randStep (mulberryState seed n)

/-- The float returned by a `rand` call whose post-step state is `t`,
modelled exactly as a rational (source line 36). -/
def randValue (t : ℕ) : ℚ := (mulberryOut t : ℚ) / 4294967296

/-- The value returned by the `(n+1)`-st call of the generator
`mulberry32 seed`: a pure function of `seed` and `n`. -/
def mulberryNth (seed n : ℕ) : ℚ := randValue (mulberryState seed (n + 1))

/-- The PRNG recurrence exactly as written in spec section 4.3, with
`mod 2^32` in place of the masks. -/
def mulberrySpecOut (t : ℕ) : ℕ :=
  let z := t
  let z := (z ^^^ (z >>> 15)) * (z ||| 1) % 4294967296
  let z := (z ^^^ (z + (z ^^^ (z >>> 7)) * (z ||| 61) % 4294967296)) % 4294967296
  (z ^^^ (z >>> 14)) % 4294967296

theorem and_mask_eq_mod (x : ℕ) : x &&& 0xFFFFFFFF = x % 4294967296 := by
  have h : (0xFFFFFFFF : ℕ) = 2 ^ 32 - 1 := by norm_num
  have h2 : (4294967296 : ℕ) = 2 ^ 32 := by norm_num
  rw [h, h2, Nat.and_pow_two_sub_one_eq_mod]

theorem mulberryOut_lt (t : ℕ) : mulberryOut t < 4294967296 := by
  unfold mulberryOut
  rw [and_mask_eq_mod]
  exact Nat.mod_lt _ (by norm_num)

theorem mulberryState_closed (seed : ℕ) :
    ∀ n, mulberryState seed n = (seed + n * 0x6D2B79F5) % 4294967296 := by
  intro n
  induction n with
  | zero => simp [mulberryState, and_mask_eq_mod]
  | succ n ih =>
    show randStep (mulberryState seed n) = _
    rw [ih, randStep, and_mask_eq_mod, Nat.add_mul, Nat.one_mul, ← Nat.add_assoc,
      Nat.mod_add_mod]

theorem mulberryOut_eq_specOut (t : ℕ) : mulberryOut t = mulberrySpecOut t := by
  unfold mulberryOut mulberrySpecOut
  simp only [and_mask_eq_mod]

/-- C1: `mulberry32 seed` implements exactly the PRNG recurrence of spec
section 4.3: the state after the `(n+1)`-st call is
`(seed + (n+1) * 0x6D2B79F5) mod 2^32` (so the n-th output is a pure
function of `seed` and `n`, all additions wrapping at `2^32`), the output
hash of that state coincides with the spec recurrence written with
`mod 2^32`, and every returned value lies in `[0, 1)`. -/
theorem mulberry32_matches_spec (seed n : ℕ) :
    mulberryState seed (n + 1) = (seed + (n + 1) * 0x6D2B79F5) % 4294967296 ∧
    mulberryNth seed n =
      (mulberrySpecOut ((seed + (n + 1) * 0x6D2B79F5) % 4294967296) : ℚ) / 4294967296 ∧
    0 ≤ mulberryNth seed n ∧ mulberryNth seed n < 1 := by
  have hstate := mulberryState_closed seed (n + 1)
  refine ⟨hstate, ?_, ?_, ?_⟩
  · rw [mulberryNth, randValue, mulberryOut_eq_specOut, hstate]
  · exact div_nonneg (by positivity) (by norm_num)
  · rw [mulberryNth, randValue]
    rw [div_lt_one (by norm_num)]
    exact_mod_cast (by exact_mod_cast mulberryOut_lt (mulberryState seed (n + 1)) :
      (mulberryOut (mulberryState seed (n + 1)) : ℚ) < 4294967296)

/-! ## `shuffle` (source lines 41-46)

In-place Fisher-Yates on a copy: for `i` from `len-1` down to `1`, draw
`j = int(rand() * (i + 1))` and swap positions `i` and `j`.  Since the
post-step state determines the drawn float exactly, and
`int((out / 2^32) * (i+1)) = out * (i+1) / 2^32` in `ℕ` (the float product
is exact for these magnitudes), the swap index is `randIndex`. -/

/-- `int(rand() * n)` where the `rand` call left the PRNG in state `t`. -/
def randIndex (t n : ℕ) : ℕ := mulberryOut t * n / 4294967296

/-- `out[i], out[j] = out[j], out[i]` on a list (indices in bounds in all
reachable calls). -/
def listSwap (l : List Word) (i j : ℕ) : List Word :=
  let a := l.getD i ""
  let b := l.getD j ""
  (l.set i b).set j a

/-- The loop of `shuffle`: `k` is the current loop index (`i` in the
source); each iteration advances the PRNG once and swaps. -/
def shuffleGo (t : ℕ) : ℕ → List Word → List Word × ℕ
  | 0, l => (l, t)
  | k + 1, l =>
    let t2 := randStep t
    let j := randIndex t2 (k + 2)
    shuffleGo t2 k (listSwap l (k + 1) j)

/-- `shuffle(arr, rand)` (source lines 41-46), with the PRNG state `t`
threaded explicitly. -/
def shuffle (arr : List Word) (t : ℕ) : List Word × ℕ :=
  shuffleGo t (arr.length - 1) arr

theorem randIndex_lt (t n : ℕ) (hn : 0 < n) : randIndex t n < n := by
  rw [randIndex, Nat.div_lt_iff_lt_mul (by norm_num : (0:ℕ) < 4294967296)]
  calc mulberryOut t * n < 4294967296 * n :=
        (Nat.mul_lt_mul_right hn).mpr (mulberryOut_lt t)
    _ = n * 4294967296 := Nat.mul_comm _ _

theorem getD_mem_of_lt {α : Type} {l : List α} {i : ℕ} (h : i < l.length) (d : α) :
    l.getD i d ∈ l := by
  rw [List.getD_eq_getElem?_getD, List.getElem?_eq_getElem h]
  exact List.getElem_mem h

theorem listSwap_length (l : List Word) (i j : ℕ) :
    (listSwap l i j).length = l.length := by
  simp [listSwap]

theorem mem_of_mem_listSwap {x : Word} {l : List Word} {i j : ℕ}
    (hi : i < l.length) (hj : j < l.length) (hx : x ∈ listSwap l i j) :
    x ∈ l := by
  rcases List.mem_or_eq_of_mem_set hx with hx1 | rfl
  · rcases List.mem_or_eq_of_mem_set hx1 with hx2 | rfl
    · exact hx2
    · exact getD_mem_of_lt hj ""
  · exact getD_mem_of_lt hi ""

theorem shuffleGo_length (t : ℕ) :
    ∀ k l, ((shuffleGo t k l).1).length = l.length := by
  intro k
  induction k generalizing t with
  | zero => intro l; rfl
  | succ k ih =>
    intro l
    show ((shuffleGo (randStep t) k (listSwap l (k + 1) _)).1).length = _
    rw [ih, listSwap_length]

theorem mem_of_mem_shuffleGo (t : ℕ) :
    ∀ k l, k < l.length → ∀ x ∈ (shuffleGo t k l).1, x ∈ l := by
  intro k
  induction k generalizing t with
  | zero => intro l _ x hx; exact hx
  | succ k ih =>
    intro l hk x hx
    have hk1 : k + 1 < l.length := hk
    have hswaplen : (listSwap l (k + 1) (randIndex (randStep t) (k + 2))).length
        = l.length := listSwap_length ..
    have hkk : k < (listSwap l (k + 1) (randIndex (randStep t) (k + 2))).length := by
      rw [hswaplen]; omega
    have hx2 := ih (randStep t) _ hkk x hx
    exact mem_of_mem_listSwap hk1
      (lt_of_lt_of_le (randIndex_lt _ _ (by omega)) (by omega)) hx2

theorem mem_of_mem_shuffle {x : Word} {arr : List Word} {t : ℕ}
    (hx : x ∈ (shuffle arr t).1) : x ∈ arr := by
  rcases arr with _ | ⟨a, arr⟩
  · exact hx
  · exact mem_of_mem_shuffleGo t _ _ (by simp) x hx

theorem shuffle_length (arr : List Word) (t : ℕ) :
    ((shuffle arr t).1).length = arr.length := shuffleGo_length ..

/-! ## Data model (source lines 49-79) -/

/-- A slot of the template (source lines 49-56). -/
structure Slot where
  direction : String
  row : ℕ
  col : ℕ
  length : ℕ
  cells : List (ℕ × ℕ)
  number : ℕ
deriving DecidableEq, Repr

/-- A parsed template (source lines 59-64). -/
structure TemplateMeta where
  template_id : String
  rows : List String
  blocks : List (List Bool)
  slots : List Slot
deriving DecidableEq, Repr

/-- A lexicon entry (source lines 67-73). -/
structure EntryMeta where
  answer : Word
  clue_options : List String
  difficulty : String
  theme_tags : List String
  is_modern : Bool
deriving DecidableEq, Repr

/-- A bonus word record (source lines 76-79). -/
structure BonusWord where
  answer : Word
  theme_id : String
deriving DecidableEq, Repr

/-! ## Lexicon index (source lines 146-176, `build_indexes`)

The three index structures hold Python sets; each is modelled as the list
of its elements (sets are only observed through membership, emptiness and
`sorted`). -/

/-- `position_index[length][i][ch]`: the words of `words_by_length[length]`
whose `i`-th letter is `ch` (source lines 157-166). -/
def build_position_index (words_by_length : ℕ → List Word) :
    ℕ → ℕ → Char → List Word :=
  fun length i ch =>
    (words_by_length length).filter
      (fun w => decide (i < w.data.length) && decide (w.data.getD i ch = ch))

/-- `prefix_index[(length, prefix_len)]`: the `prefix_len`-letter prefixes
of the words of that length (source lines 168-174). -/
def build_pfx_index (words_by_length : ℕ → List Word) :
    ℕ → ℕ → List (List Char) :=
  fun length pfx_len => (words_by_length length).map (fun w => w.data.take pfx_len)

/-- `word_set_by_length[length]` (source lines 153-155): `set(words)`,
observed only through membership. -/
def build_word_set (words_by_length : ℕ → List Word) : ℕ → List Word :=
  fun length => words_by_length length

/-! ## `get_candidates` (source lines 179-206) -/

/-- The order `sorted(...)` sorts Python strings by: lexicographic
comparison of their code points, i.e. of their character lists. -/
def wordLe (a b : Word) : Prop := a.data ≤ b.data

instance : DecidableRel wordLe := fun a b => by unfold wordLe; infer_instance

instance : IsTrans Word wordLe := ⟨fun _ _ _ h1 h2 => le_trans h1 h2⟩

instance : IsTotal Word wordLe := ⟨fun a b => le_total a.data b.data⟩

instance : IsAntisymm Word wordLe :=
  ⟨fun a b h1 h2 => by
    have h3 := le_antisymm h1 h2
    cases a with
    | mk da =>
      cases b with
      | mk db => rw [show da = db from h3]⟩

/-- The loop over constrained pattern positions: intersect the position
buckets (a `none` pool means "no position constrained yet").  The source's
early `return []` on an empty bucket or an empty running pool is an
optimization that does not change the final (empty) result. -/
def candidatePool (position_index : ℕ → ℕ → Char → List Word) (length : ℕ) :
    List (ℕ × Char) → Option (List Word) → Option (List Word)
  | [], pool => pool
  | (i, ch) :: rest, pool =>
    if ch = '.' then candidatePool position_index length rest pool
    else
      let bucket := position_index length i ch
      match pool with
      | none => candidatePool position_index length rest (some bucket)
      | some p =>
        candidatePool position_index length rest (some (p.filter (· ∈ bucket)))

/-- `get_candidates(length, pattern, used_words, ...)`: the sorted list of
distinct words of the given length matching the pattern and not already
used (source lines 179-206; `sorted(candidate_pool)` on a Python set is
ascending order of the distinct elements). -/
def get_candidates (length : ℕ) (pattern : List Char) (used_words : List Word)
    (words_by_length : ℕ → List Word)
    (position_index : ℕ → ℕ → Char → List Word) : List Word :=
  let pool :=
    match candidatePool position_index length pattern.enum none with
    | none => words_by_length length
    | some p => p
  List.insertionSort wordLe ((pool.filter (· ∉ used_words)).dedup)

theorem get_candidates_not_used {w : Word} {length : ℕ} {pattern : List Char}
    {used_words : List Word} {words_by_length : ℕ → List Word}
    {position_index : ℕ → ℕ → Char → List Word}
    (hw : w ∈ get_candidates length pattern used_words words_by_length position_index) :
    w ∉ used_words := by
  rw [get_candidates, List.mem_insertionSort, List.mem_dedup, List.mem_filter] at hw
  simpa using hw.2

/-! ## Solver state (spec section 3, source lines 232-245)

The grid is a total function on coordinates: blocked cells hold `'#'`,
empty cells `none`, filled cells the letter.  `assigned` and `used_words`
mirror the Python list and set. -/

abbrev Grid := ℕ × ℕ → Option Char

def gridSet (g : Grid) (rc : ℕ × ℕ) (v : Option Char) : Grid :=
  fun p => if p = rc then v else g p

structure SolverCfg where
  slots : List Slot
  size : ℕ
  blocks : ℕ → ℕ → Bool
  theme_id : String
  words_by_length : ℕ → List Word
  word_set_by_length : ℕ → List Word
  position_index : ℕ → ℕ → Char → List Word
  pfx_index : ℕ → ℕ → List (List Char)
  entries : Word → EntryMeta
  enforce_themed_range : Bool
  allow_hard_words : Bool

structure SolveState where
  grid : Grid
  assigned : List (Option Word)
  used_words : List Word

instance : Inhabited Slot := ⟨⟨"", 0, 0, 0, [], 0⟩⟩

/-- `pattern_for_slot` (source lines 240-245): the slot's letters with `.`
for empty cells. -/
def pattern_for_slot (g : Grid) (slot : Slot) : List Char :=
  slot.cells.map (fun rc => (g rc).getD '.')

/-- Length of the leading run of known letters of a pattern (the `while`
loop of source lines 252-254). -/
def leadLen : List Char → ℕ
  | [] => 0
  | ch :: rest => if ch = '.' then 0 else leadLen rest + 1

/-- `prefix_valid_for_unassigned` (source lines 247-260): every unassigned
slot's known leading letters must occur as a prefix in the index. -/
def pfx_valid_for_unassigned (cfg : SolverCfg) (st : SolveState) : Bool :=
  cfg.slots.enum.all (fun p =>
    match st.assigned.getD p.1 none with
    | some _ => true
    | none =>
      let pattern := pattern_for_slot st.grid p.2
      let k := leadLen pattern
      if k = 0 then true
      else decide (pattern.take k ∈ cfg.pfx_index p.2.length k))

/-- `themed_count` (source lines 262-269).  Note `if not word: continue`
also skips an (unreachable) empty-string assignment, hence the `w ≠ ""`
conjunct. -/
def themed_count (cfg : SolverCfg) (assigned : List (Option Word)) : ℕ :=
  assigned.countP (fun o =>
    match o with
    | none => false
    | some w =>
      decide (w ≠ "") && decide (cfg.theme_id ∈ (cfg.entries w).theme_tags))

/-- The collection loop of `final_constraints_hold` (source lines 272-283):
walk the slots, fail on an unassigned slot or a word outside its length's
word set, and split the words by direction. -/
def collectWordsGo (cfg : SolverCfg) (assigned : List (Option Word)) :
    List Slot → ℕ → Option (List Word × List Word)
  | [], _ => some ([], [])
  | slot :: rest, i =>
    match assigned.getD i none with
    | none => none
    | some w =>
      if w ∈ cfg.word_set_by_length slot.length then
        match collectWordsGo cfg assigned rest (i + 1) with
        | none => none
        | some (a, d) =>
          if slot.direction = "across" then some (w :: a, d) else some (a, w :: d)
      else none

/-- `final_constraints_hold` (source lines 271-296). -/
def final_constraints_hold (cfg : SolverCfg) (assigned : List (Option Word)) : Bool :=
  match collectWordsGo cfg assigned cfg.slots 0 with
  | none => false
  | some (across, down) =>
    decide across.Nodup && decide down.Nodup &&
    across.all (fun w => decide (w ∉ down)) &&
    (if cfg.enforce_themed_range then
      decide (THEMED_SLOT_MIN ≤ themed_count cfg assigned) &&
      decide (themed_count cfg assigned ≤ THEMED_SLOT_MAX)
    else true)

/-- The tentative placement loop (source lines 355-364): place the
candidate's letters cell by cell, recording in `touched` exactly the cells
newly written, and stop with a conflict flag on a mismatched letter. -/
def placeLetters (g : Grid) : List ((ℕ × ℕ) × Char) → Bool × Grid × List (ℕ × ℕ)
  | [] => (false, g, [])
  | (rc, ch) :: rest =>
    match g rc with
    | some e =>
      if e = ch then placeLetters g rest
      else (true, g, [])
    | none =>
      let r := placeLetters (gridSet g rc (some ch)) rest
      (r.1, r.2.1, rc :: r.2.2)

/-- The backtracking undo (source lines 369-372): clear exactly the touched
cells, remove the candidate from the used set, unassign the slot. -/
def undoCells (g : Grid) : List (ℕ × ℕ) → Grid
  | [] => g
  | rc :: rest => undoCells (gridSet g rc none) rest

def undoAttempt (st : SolveState) (touched : List (ℕ × ℕ)) (bi : ℕ) (cand : Word) :
    SolveState :=
  ⟨undoCells st.grid touched, st.assigned.set bi none, st.used_words.erase cand⟩

/-- The themed-range forward pruning (source lines 339-349) deciding to
`continue` without attempting the candidate.  `remaining_slots` is a Python
`int`, hence `ℤ`. -/
def themeSkip (cfg : SolverCfg) (st : SolveState) (cand : Word) : Bool :=
  let assigned_count := st.assigned.countP (fun o => o.isSome)
  let current := themed_count cfg st.assigned
  let inc : ℕ := if cfg.theme_id ∈ (cfg.entries cand).theme_tags then 1 else 0
  let next := current + inc
  let remaining : ℤ := (st.assigned.length : ℤ) - ((assigned_count : ℤ) + 1)
  cfg.enforce_themed_range &&
    (decide (next > THEMED_SLOT_MAX) ||
     decide ((next : ℤ) + remaining < (THEMED_SLOT_MIN : ℤ)))

/-- One tentative candidate attempt (source lines 351-372): assign, mark
used, place letters, and on a conflict, a failed prefix check or a failed
recursion undo to the pre-attempt state. -/
def attemptCandidate (cfg : SolverCfg) (rec : SolveState × ℕ → Bool × SolveState × ℕ)
    (bi : ℕ) (slot : Slot) (cand : Word) (st : SolveState) (t : ℕ) :
    Bool × SolveState × ℕ :=
  let assigned2 := st.assigned.set bi (some cand)
  let used2 := st.used_words.insert cand
  let pl := placeLetters st.grid (slot.cells.zip cand.data)
  let placed : SolveState := ⟨pl.2.1, assigned2, used2⟩
  if pl.1 = false ∧ pfx_valid_for_unassigned cfg placed = true then
    let r := rec (placed, t)
    if r.1 then r
    else (false, undoAttempt r.2.1 pl.2.2 bi cand, r.2.2)
  else (false, undoAttempt placed pl.2.2 bi cand, t)

/-- The candidate loop (source lines 338-374). -/
def tryCands (cfg : SolverCfg) (rec : SolveState × ℕ → Bool × SolveState × ℕ)
    (bi : ℕ) (slot : Slot) : List Word → SolveState → ℕ → Bool × SolveState × ℕ
  | [], st, t => (false, st, t)
  | cand :: rest, st, t =>
    if themeSkip cfg st cand then tryCands cfg rec bi slot rest st t
    else
      let r := attemptCandidate cfg rec bi slot cand st t
      if r.1 then r
      else tryCands cfg rec bi slot rest r.2.1 r.2.2

/-- The slot-selection loop (source lines 302-320): scan unassigned slots,
fail on the first empty candidate set, otherwise keep the slot with the
strictly smallest candidate list (earliest wins ties). -/
def selectSlotGo (cfg : SolverCfg) (st : SolveState) :
    List (ℕ × Slot) → Option (ℕ × List Word) → Option (Option (ℕ × List Word))
  | [], best => some best
  | (i, slot) :: rest, best =>
    match st.assigned.getD i none with
    | some _ => selectSlotGo cfg st rest best
    | none =>
      let cands := get_candidates slot.length (pattern_for_slot st.grid slot)
        st.used_words cfg.words_by_length cfg.position_index
      if cands.isEmpty then none
      else
        match best with
        | none => selectSlotGo cfg st rest (some (i, cands))
        | some (bi, bc) =>
          if cands.length < bc.length then selectSlotGo cfg st rest (some (i, cands))
          else selectSlotGo cfg st rest (some (bi, bc))

def selectSlot (cfg : SolverCfg) (st : SolveState) : Option (Option (ℕ × List Word)) :=
  selectSlotGo cfg st cfg.slots.enum none

/-- The difficulty filter and shuffle (source lines 326-336): when hard
words are not allowed, filter the chosen slot's candidates to easy/medium
first (failing if none remain) and only then shuffle. -/
def is_non_hard (cfg : SolverCfg) (w : Word) : Bool :=
  (cfg.entries w).difficulty == "easy" || (cfg.entries w).difficulty == "medium"

def rankCandidates (cfg : SolverCfg) (cands : List Word) (t : ℕ) :
    Option (List Word × ℕ) :=
  if cfg.allow_hard_words then some (shuffle cands t)
  else
    let non_hard := cands.filter (is_non_hard cfg)
    if non_hard.isEmpty then none else some (shuffle non_hard t)

/-- The branch taken after a slot has been selected (source lines 325-374). -/
def branchStep (cfg : SolverCfg) (rec : SolveState × ℕ → Bool × SolveState × ℕ)
    (bi : ℕ) (cands : List Word) (st : SolveState) (t : ℕ) : Bool × SolveState × ℕ :=
  let slot := cfg.slots.getD bi default
  match rankCandidates cfg cands t with
  | none => (false, st, t)
  | some (ranked, t2) =>
    tryCands cfg rec bi slot (ranked.take MAX_CANDIDATES_PER_SLOT) st t2

/-- `recurse` (source lines 298-374), with fuel: each level assigns one
more slot, so any fuel above the number of unassigned slots computes the
same result as the Python recursion. -/
def recurse (cfg : SolverCfg) : ℕ → SolveState × ℕ → Bool × SolveState × ℕ
  | 0, (st, t) => (false, st, t)
  | fuel + 1, (st, t) =>
    if st.assigned.all (fun o => o.isSome) then
      (final_constraints_hold cfg st.assigned, st, t)
    else
      match selectSlot cfg st with
      | none => (false, st, t)
      | some none => (false, st, t)
      | some (some (bi, cands)) => branchStep cfg (recurse cfg fuel) bi cands st t

/-- The fresh state of one solver invocation (source lines 232-238). -/
def initialState (cfg : SolverCfg) : SolveState :=
  ⟨fun rc =>
    if rc.1 < cfg.size ∧ rc.2 < cfg.size then
      (if cfg.blocks rc.1 rc.2 then some '#' else none)
    else none,
   List.replicate cfg.slots.length none, []⟩

/-- `solve_template` (source lines 220-380). -/
def solve_template (cfg : SolverCfg) (seed : ℕ) : Option (List Word) :=
  let result := recurse cfg (cfg.slots.length + 1) (initialState cfg, seed &&& 0xFFFFFFFF)
  if result.1 then some (result.2.1.assigned.filterMap id) else none

/-! ## A concrete configuration used by witnesses: a fully open 3x3
template with a six-word lexicon. -/

def exWords : List Word := ["ARE", "CAT", "COW", "ORE", "TED", "WED"]

def exWbl : ℕ → List Word := fun n => if n = 3 then exWords else []

def exEntries : Word → EntryMeta := fun w => ⟨w, ["clue"], "easy", [], false⟩

def exSlotA (r : ℕ) : Slot := ⟨"across", r, 0, 3, [(r, 0), (r, 1), (r, 2)], 0⟩

def exSlotD (c : ℕ) : Slot := ⟨"down", 0, c, 3, [(0, c), (1, c), (2, c)], 0⟩

def exCfg : SolverCfg :=
  ⟨[exSlotA 0, exSlotD 0, exSlotD 1, exSlotD 2, exSlotA 1, exSlotA 2], 3,
   fun _ _ => false, "t", exWbl, build_word_set exWbl, build_position_index exWbl,
   build_pfx_index exWbl, exEntries, false, true⟩


/-! ## Grid and list bookkeeping lemmas -/

theorem gridSet_same (g : Grid) (rc : ℕ × ℕ) (v w : Option Char) :
    gridSet (gridSet g rc v) rc w = gridSet g rc w := by
  funext p
  simp only [gridSet]
  by_cases h : p = rc <;> simp [h]

theorem gridSet_self {g : Grid} {rc : ℕ × ℕ} {v : Option Char} (h : g rc = v) :
    gridSet g rc v = g := by
  funext p
  simp only [gridSet]
  by_cases hp : p = rc
  · rw [if_pos hp, hp, h]
  · rw [if_neg hp]

theorem gridSet_comm {rc rc' : ℕ × ℕ} (h : rc ≠ rc') (g : Grid)
    (v w : Option Char) :
    gridSet (gridSet g rc v) rc' w = gridSet (gridSet g rc' w) rc v := by
  funext p
  simp only [gridSet]
  by_cases h1 : p = rc'
  · have h2 : ¬p = rc := by rw [h1]; exact fun hh => h hh.symm
    have h3 : ¬rc' = rc := fun hh => h hh.symm
    simp [h1, h2, h3]
  · by_cases h2 : p = rc
    · simp [h1, h2, h]
    · simp [h1, h2]

theorem undoCells_gridSet_comm {rc : ℕ × ℕ} :
    ∀ (touched : List (ℕ × ℕ)) (g : Grid) (v : Option Char), rc ∉ touched →
      undoCells (gridSet g rc v) touched = gridSet (undoCells g touched) rc v := by
  intro touched
  induction touched with
  | nil => intro g v _; rfl
  | cons x rest ih =>
    intro g v hmem
    have hx : rc ≠ x := fun h => hmem (h ▸ List.mem_cons_self x rest)
    have hrest : rc ∉ rest := fun h => hmem (List.mem_cons_of_mem x h)
    show undoCells (gridSet (gridSet g rc v) x none) rest = _
    rw [gridSet_comm hx]
    exact ih (gridSet g x none) v hrest

theorem placeLetters_touched_none :
    ∀ (pairs : List ((ℕ × ℕ) × Char)) (g : Grid) (rc : ℕ × ℕ),
      rc ∈ (placeLetters g pairs).2.2 → g rc = none := by
  intro pairs
  induction pairs with
  | nil => intro g rc h; exact absurd h (List.not_mem_nil rc)
  | cons p rest ih =>
    intro g rc h
    obtain ⟨prc, ch⟩ := p
    rcases hg : g prc with _ | e
    · simp only [placeLetters, hg] at h
      rcases List.mem_cons.mp h with rfl | hmem
      · exact hg
      · have := ih (gridSet g prc (some ch)) rc hmem
        by_cases hrc : rc = prc
        · subst hrc; simp [gridSet] at this
        · simpa [gridSet, hrc] using this
    · simp only [placeLetters, hg] at h
      by_cases he : e = ch
      · simp only [he, if_pos rfl] at h
        exact ih g rc h
      · simp only [if_neg he] at h
        exact absurd h (List.not_mem_nil rc)

theorem placeLetters_undo :
    ∀ (pairs : List ((ℕ × ℕ) × Char)) (g : Grid),
      undoCells (placeLetters g pairs).2.1 (placeLetters g pairs).2.2 = g := by
  intro pairs
  induction pairs with
  | nil => intro g; rfl
  | cons p rest ih =>
    intro g
    obtain ⟨prc, ch⟩ := p
    rcases hg : g prc with _ | e
    · have hnotin : prc ∉ (placeLetters (gridSet g prc (some ch)) rest).2.2 := by
        intro hmem
        have := placeLetters_touched_none rest (gridSet g prc (some ch)) prc hmem
        simp [gridSet] at this
      simp only [placeLetters, hg]
      show undoCells
          (gridSet (placeLetters (gridSet g prc (some ch)) rest).2.1 prc none)
          (placeLetters (gridSet g prc (some ch)) rest).2.2 = g
      rw [undoCells_gridSet_comm _ _ _ hnotin, ih (gridSet g prc (some ch)),
        gridSet_same, gridSet_self hg]
    · by_cases he : e = ch
      · simp only [placeLetters, hg, if_pos he]
        exact ih g
      · simp only [placeLetters, hg, if_neg he]
        rfl

theorem set_none_eq_self :
    ∀ (l : List (Option Word)) (bi : ℕ), l.getD bi none = none → l.set bi none = l := by
  intro l
  induction l with
  | nil => intro bi _; rfl
  | cons o rest ih =>
    intro bi h
    cases bi with
    | zero => simp only [List.getD_cons_zero] at h; simp [h]
    | succ n =>
      simp only [List.getD_cons_succ] at h
      simp [List.set_cons_succ, ih n h]

/-! ## Exact restore on failure -/

theorem undoAttempt_of_placed {st : SolveState} {bi : ℕ}
    {cand : Word} (slot : Slot)
    (hbi : st.assigned.getD bi none = none)
    (hcand : cand ∉ st.used_words) :
    undoAttempt
      ⟨(placeLetters st.grid (slot.cells.zip cand.data)).2.1,
        st.assigned.set bi (some cand), st.used_words.insert cand⟩
      (placeLetters st.grid (slot.cells.zip cand.data)).2.2 bi cand = st := by
  show SolveState.mk _ _ _ = st
  rw [placeLetters_undo, List.set_set, set_none_eq_self _ _ hbi,
    List.insert_of_not_mem hcand, List.erase_cons_head]

theorem attemptCandidate_restore (cfg : SolverCfg)
    (rec : SolveState × ℕ → Bool × SolveState × ℕ)
    (hrec : ∀ s u, (rec (s, u)).1 = false → (rec (s, u)).2.1 = s)
    (bi : ℕ) (slot : Slot) (cand : Word) (st : SolveState) (t : ℕ)
    (hbi : st.assigned.getD bi none = none)
    (hcand : cand ∉ st.used_words)
    (h : (attemptCandidate cfg rec bi slot cand st t).1 = false) :
    (attemptCandidate cfg rec bi slot cand st t).2.1 = st := by
  unfold attemptCandidate at h ⊢
  by_cases hcond : (placeLetters st.grid (slot.cells.zip cand.data)).1 = false ∧
      pfx_valid_for_unassigned cfg
        ⟨(placeLetters st.grid (slot.cells.zip cand.data)).2.1,
          st.assigned.set bi (some cand), st.used_words.insert cand⟩ = true
  · rw [if_pos hcond] at h ⊢
    by_cases hb : (rec (⟨(placeLetters st.grid (slot.cells.zip cand.data)).2.1,
        st.assigned.set bi (some cand), st.used_words.insert cand⟩, t)).1 = true
    · rw [if_pos hb] at h
      rw [hb] at h
      exact Bool.noConfusion h
    · rw [if_neg hb] at h ⊢
      have hs2 := hrec
        (⟨(placeLetters st.grid (slot.cells.zip cand.data)).2.1,
          st.assigned.set bi (some cand), st.used_words.insert cand⟩ : SolveState) t
        (Bool.not_eq_true _ ▸ hb)
      show (undoAttempt _ (placeLetters st.grid (slot.cells.zip cand.data)).2.2
          bi cand) = st
      rw [hs2]
      exact undoAttempt_of_placed slot hbi hcand
  · rw [if_neg hcond]
    exact undoAttempt_of_placed slot hbi hcand

theorem tryCands_restore (cfg : SolverCfg)
    (rec : SolveState × ℕ → Bool × SolveState × ℕ)
    (hrec : ∀ s u, (rec (s, u)).1 = false → (rec (s, u)).2.1 = s)
    (bi : ℕ) (slot : Slot) :
    ∀ (cands : List Word) (st : SolveState) (t : ℕ),
      st.assigned.getD bi none = none →
      (∀ c ∈ cands, c ∉ st.used_words) →
      (tryCands cfg rec bi slot cands st t).1 = false →
      (tryCands cfg rec bi slot cands st t).2.1 = st := by
  intro cands
  induction cands with
  | nil => intro st t _ _ _; rfl
  | cons cand rest ih =>
    intro st t hbi hused h
    by_cases hskip : themeSkip cfg st cand = true
    · simp only [tryCands, if_pos hskip] at h ⊢
      exact ih st t hbi (fun c hc => hused c (List.mem_cons_of_mem _ hc)) h
    · simp only [tryCands, if_neg hskip] at h ⊢
      by_cases hatt : (attemptCandidate cfg rec bi slot cand st t).1 = true
      · rw [if_pos hatt] at h
        rw [hatt] at h
        exact Bool.noConfusion h
      · rw [if_neg hatt] at h ⊢
        have hs2 : (attemptCandidate cfg rec bi slot cand st t).2.1 = st :=
          attemptCandidate_restore cfg rec hrec bi slot cand st t hbi
            (hused cand (List.mem_cons_self _ _)) (Bool.not_eq_true _ ▸ hatt)
        rw [hs2] at h ⊢
        exact ih st _ hbi (fun c hc => hused c (List.mem_cons_of_mem _ hc)) h

theorem selectSlotGo_inv (cfg : SolverCfg) (st : SolveState) :
    ∀ (L : List (ℕ × Slot)) (best : Option (ℕ × List Word)) (bi : ℕ)
      (cands : List Word),
      (∀ bi0 c0, best = some (bi0, c0) →
        st.assigned.getD bi0 none = none ∧
        ∃ slot : Slot, c0 = get_candidates slot.length (pattern_for_slot st.grid slot)
          st.used_words cfg.words_by_length cfg.position_index) →
      selectSlotGo cfg st L best = some (some (bi, cands)) →
      st.assigned.getD bi none = none ∧
      ∃ slot : Slot, cands = get_candidates slot.length (pattern_for_slot st.grid slot)
        st.used_words cfg.words_by_length cfg.position_index := by
  intro L
  induction L with
  | nil =>
    intro best bi cands hinv h
    simp only [selectSlotGo, Option.some.injEq] at h
    exact hinv bi cands h
  | cons p rest ih =>
    intro best bi cands hinv h
    obtain ⟨i, slot⟩ := p
    rcases hass : st.assigned.getD i none with _ | w
    · rcases best with _ | ⟨bi0, bc0⟩
      · simp only [selectSlotGo, hass] at h
        by_cases hemp : (get_candidates slot.length (pattern_for_slot st.grid slot)
            st.used_words cfg.words_by_length cfg.position_index).isEmpty = true
        · rw [if_pos hemp] at h; exact Option.noConfusion h
        · rw [if_neg hemp] at h
          exact ih _ bi cands
            (fun bi1 c1 he => by
              injection he with he1
              injection he1 with h1 h2
              exact h1 ▸ h2 ▸ ⟨hass, slot, rfl⟩) h
      · simp only [selectSlotGo, hass] at h
        by_cases hemp : (get_candidates slot.length (pattern_for_slot st.grid slot)
            st.used_words cfg.words_by_length cfg.position_index).isEmpty = true
        · rw [if_pos hemp] at h; exact Option.noConfusion h
        · rw [if_neg hemp] at h
          by_cases hlt : (get_candidates slot.length (pattern_for_slot st.grid slot)
              st.used_words cfg.words_by_length cfg.position_index).length < bc0.length
          · rw [if_pos hlt] at h
            exact ih _ bi cands
              (fun bi1 c1 he => by
                injection he with he1
                injection he1 with h1 h2
                exact h1 ▸ h2 ▸ ⟨hass, slot, rfl⟩) h
          · rw [if_neg hlt] at h
            exact ih _ bi cands (fun bi1 c1 he => by
              injection he with he1
              injection he1 with h1 h2
              exact hinv bi1 c1 (by rw [h1, h2])) h
    · simp only [selectSlotGo, hass] at h
      exact ih best bi cands hinv h

theorem selectSlot_some (cfg : SolverCfg) (st : SolveState) {bi : ℕ}
    {cands : List Word}
    (h : selectSlot cfg st = some (some (bi, cands))) :
    st.assigned.getD bi none = none ∧
    ∃ slot : Slot, cands = get_candidates slot.length (pattern_for_slot st.grid slot)
      st.used_words cfg.words_by_length cfg.position_index :=
  selectSlotGo_inv cfg st _ none bi cands (fun _ _ he => by cases he) h

theorem rankCandidates_mem {cfg : SolverCfg} {cands : List Word} {t : ℕ}
    {ranked : List Word} {t2 : ℕ}
    (h : rankCandidates cfg cands t = some (ranked, t2)) :
    ∀ w ∈ ranked, w ∈ cands := by
  intro w hw
  unfold rankCandidates at h
  by_cases hah : cfg.allow_hard_words = true
  · rw [if_pos hah] at h
    injection h with h
    have h1 : ranked = (shuffle cands t).1 := by rw [h]
    exact mem_of_mem_shuffle (h1 ▸ hw)
  · rw [if_neg hah] at h
    by_cases hemp : (cands.filter (is_non_hard cfg)).isEmpty = true
    · rw [if_pos hemp] at h; cases h
    · rw [if_neg hemp] at h
      injection h with h
      have h1 : ranked = (shuffle (cands.filter (is_non_hard cfg)) t).1 := by rw [h]
      have h2 := mem_of_mem_shuffle (h1 ▸ hw)
      exact (List.mem_filter.mp h2).1

/-- Failure of the whole recursion leaves the state untouched. -/
theorem recurse_restore (cfg : SolverCfg) :
    ∀ (fuel : ℕ) (st : SolveState) (t : ℕ),
      (recurse cfg fuel (st, t)).1 = false → (recurse cfg fuel (st, t)).2.1 = st := by
  intro fuel
  induction fuel with
  | zero => intro st t _; rfl
  | succ fuel ih =>
    intro st t h
    by_cases hall : st.assigned.all (fun o => o.isSome) = true
    · simp only [recurse, if_pos hall] at h ⊢
    · simp only [recurse, if_neg hall] at h ⊢
      rcases hsel : selectSlot cfg st with _ | sel
      · simp [hsel]
      · rcases sel with _ | ⟨bi, cands⟩
        · simp [hsel]
        · simp only [hsel] at h ⊢
          unfold branchStep at h ⊢
          rcases hrank : rankCandidates cfg cands t with _ | ⟨ranked, t2⟩
          · simp [hrank]
          · simp only [hrank] at h ⊢
            obtain ⟨hbi, slot0, hcands⟩ := selectSlot_some cfg st hsel
            refine tryCands_restore cfg (recurse cfg fuel)
              (fun s u => ih s u) bi (cfg.slots.getD bi default)
              (ranked.take MAX_CANDIDATES_PER_SLOT) st t2 hbi ?_ h
            intro c hc
            have hc1 : c ∈ ranked := List.mem_of_mem_take hc
            have hc2 : c ∈ cands := rankCandidates_mem hrank c hc1
            rw [hcands] at hc2
            exact get_candidates_not_used hc2

/-- C5: whenever a tentatively placed candidate fails — by a letter conflict
during placement, a failed prefix-feasibility check, or a failed recursion —
the solver restores the `SolveState` exactly to its value before the
attempt: precisely the newly filled grid cells are cleared (cells that
already held a letter keep it), the candidate is removed from the used-word
set, and the slot's assignment is reset to unassigned. -/
theorem candidate_failure_restores_state (cfg : SolverCfg) (fuel bi : ℕ)
    (slot : Slot) (cand : Word) (st : SolveState) (t : ℕ)
    (hbi : st.assigned.getD bi none = none)
    (hcand : cand ∉ st.used_words)
    (h : (attemptCandidate cfg (recurse cfg fuel) bi slot cand st t).1 = false) :
    (attemptCandidate cfg (recurse cfg fuel) bi slot cand st t).2.1 = st :=
  attemptCandidate_restore cfg (recurse cfg fuel)
    (fun s u => recurse_restore cfg fuel s u) bi slot cand st t hbi hcand h

/-! ## Success facts: a successful recursion ends with every slot assigned
and the final constraints checked -/

theorem attemptCandidate_success (cfg : SolverCfg)
    (rec : SolveState × ℕ → Bool × SolveState × ℕ) (P : SolveState → Prop)
    (bi : ℕ) (slot : Slot) (cand : Word) (st : SolveState) (t : ℕ)
    (hrec : (placeLetters st.grid (slot.cells.zip cand.data)).1 = false →
      (rec (⟨(placeLetters st.grid (slot.cells.zip cand.data)).2.1,
        st.assigned.set bi (some cand), st.used_words.insert cand⟩, t)).1 = true →
      P ((rec (⟨(placeLetters st.grid (slot.cells.zip cand.data)).2.1,
        st.assigned.set bi (some cand), st.used_words.insert cand⟩, t)).2.1))
    (h : (attemptCandidate cfg rec bi slot cand st t).1 = true) :
    P ((attemptCandidate cfg rec bi slot cand st t).2.1) := by
  unfold attemptCandidate at h ⊢
  by_cases hcond : (placeLetters st.grid (slot.cells.zip cand.data)).1 = false ∧
      pfx_valid_for_unassigned cfg
        ⟨(placeLetters st.grid (slot.cells.zip cand.data)).2.1,
          st.assigned.set bi (some cand), st.used_words.insert cand⟩ = true
  · rw [if_pos hcond] at h ⊢
    by_cases hb : (rec (⟨(placeLetters st.grid (slot.cells.zip cand.data)).2.1,
        st.assigned.set bi (some cand), st.used_words.insert cand⟩, t)).1 = true
    · rw [if_pos hb]
      exact hrec hcond.1 hb
    · rw [if_neg hb] at h
      exact Bool.noConfusion h
  · rw [if_neg hcond] at h
    exact Bool.noConfusion h

theorem tryCands_success (cfg : SolverCfg)
    (rec : SolveState × ℕ → Bool × SolveState × ℕ) (P : SolveState → Prop)
    (bi : ℕ) (slot : Slot)
    (hrec : ∀ s u, (rec (s, u)).1 = true → P ((rec (s, u)).2.1)) :
    ∀ (cands : List Word) (st : SolveState) (t : ℕ),
      (tryCands cfg rec bi slot cands st t).1 = true →
      P ((tryCands cfg rec bi slot cands st t).2.1) := by
  intro cands
  induction cands with
  | nil => intro st t h; exact Bool.noConfusion h
  | cons cand rest ih =>
    intro st t h
    by_cases hskip : themeSkip cfg st cand = true
    · simp only [tryCands, if_pos hskip] at h ⊢
      exact ih st t h
    · simp only [tryCands, if_neg hskip] at h ⊢
      by_cases hatt : (attemptCandidate cfg rec bi slot cand st t).1 = true
      · rw [if_pos hatt] at h ⊢
        exact attemptCandidate_success cfg rec P bi slot cand st t
          (fun _ hb => hrec _ t hb) hatt
      · rw [if_neg hatt] at h ⊢
        exact ih _ _ h

theorem recurse_success (cfg : SolverCfg) :
    ∀ (fuel : ℕ) (st : SolveState) (t : ℕ),
      (recurse cfg fuel (st, t)).1 = true →
      ((recurse cfg fuel (st, t)).2.1).assigned.all (fun o => o.isSome) = true ∧
      final_constraints_hold cfg ((recurse cfg fuel (st, t)).2.1).assigned = true := by
  intro fuel
  induction fuel with
  | zero => intro st t h; exact Bool.noConfusion h
  | succ fuel ih =>
    intro st t h
    by_cases hall : st.assigned.all (fun o => o.isSome) = true
    · simp only [recurse, if_pos hall] at h ⊢
      exact ⟨hall, h⟩
    · simp only [recurse, if_neg hall] at h ⊢
      rcases hsel : selectSlot cfg st with _ | sel
      · simp [hsel] at h
      · rcases sel with _ | ⟨bi, cands⟩
        · simp [hsel] at h
        · simp only [hsel] at h ⊢
          unfold branchStep at h ⊢
          rcases hrank : rankCandidates cfg cands t with _ | ⟨ranked, t2⟩
          · simp [hrank] at h
          · simp only [hrank] at h ⊢
            exact tryCands_success cfg (recurse cfg fuel)
              (fun s => s.assigned.all (fun o => o.isSome) = true ∧
                final_constraints_hold cfg s.assigned = true) bi _
              (fun s u hb => ih s u hb) _ st t2 h

/-! ## The recursion preserves the length of `assigned` -/

theorem attemptCandidate_length (cfg : SolverCfg)
    (rec : SolveState × ℕ → Bool × SolveState × ℕ)
    (hrec : ∀ s u, ((rec (s, u)).2.1).assigned.length = s.assigned.length)
    (bi : ℕ) (slot : Slot) (cand : Word) (st : SolveState) (t : ℕ) :
    ((attemptCandidate cfg rec bi slot cand st t).2.1).assigned.length =
      st.assigned.length := by
  unfold attemptCandidate
  by_cases hcond : (placeLetters st.grid (slot.cells.zip cand.data)).1 = false ∧
      pfx_valid_for_unassigned cfg
        ⟨(placeLetters st.grid (slot.cells.zip cand.data)).2.1,
          st.assigned.set bi (some cand), st.used_words.insert cand⟩ = true
  · rw [if_pos hcond]
    by_cases hb : (rec (⟨(placeLetters st.grid (slot.cells.zip cand.data)).2.1,
        st.assigned.set bi (some cand), st.used_words.insert cand⟩, t)).1 = true
    · rw [if_pos hb, hrec]
      exact List.length_set ..
    · rw [if_neg hb]
      show ((undoAttempt _ _ bi cand).assigned).length = _
      rw [undoAttempt]
      show (((rec (⟨_, _, _⟩, t)).2.1).assigned.set bi none).length = _
      rw [List.length_set, hrec]
      exact List.length_set ..
  · rw [if_neg hcond]
    show ((undoAttempt _ _ bi cand).assigned).length = _
    rw [undoAttempt]
    show ((st.assigned.set bi (some cand)).set bi none).length = _
    rw [List.length_set]
    exact List.length_set ..

theorem tryCands_length (cfg : SolverCfg)
    (rec : SolveState × ℕ → Bool × SolveState × ℕ)
    (hrec : ∀ s u, ((rec (s, u)).2.1).assigned.length = s.assigned.length)
    (bi : ℕ) (slot : Slot) :
    ∀ (cands : List Word) (st : SolveState) (t : ℕ),
      ((tryCands cfg rec bi slot cands st t).2.1).assigned.length =
        st.assigned.length := by
  intro cands
  induction cands with
  | nil => intro st t; rfl
  | cons cand rest ih =>
    intro st t
    by_cases hskip : themeSkip cfg st cand = true
    · simp only [tryCands, if_pos hskip]
      exact ih st t
    · simp only [tryCands, if_neg hskip]
      by_cases hatt : (attemptCandidate cfg rec bi slot cand st t).1 = true
      · rw [if_pos hatt]
        exact attemptCandidate_length cfg rec hrec bi slot cand st t
      · rw [if_neg hatt]
        rw [ih]
        exact attemptCandidate_length cfg rec hrec bi slot cand st t

theorem recurse_length (cfg : SolverCfg) :
    ∀ (fuel : ℕ) (st : SolveState) (t : ℕ),
      ((recurse cfg fuel (st, t)).2.1).assigned.length = st.assigned.length := by
  intro fuel
  induction fuel with
  | zero => intro st t; rfl
  | succ fuel ih =>
    intro st t
    by_cases hall : st.assigned.all (fun o => o.isSome) = true
    · simp only [recurse, if_pos hall]
    · simp only [recurse, if_neg hall]
      rcases hsel : selectSlot cfg st with _ | sel
      · simp
      · rcases sel with _ | ⟨bi, cands⟩
        · simp
        · simp only []
          unfold branchStep
          rcases hrank : rankCandidates cfg cands t with _ | ⟨ranked, t2⟩
          · simp
          · simp only []
            exact tryCands_length cfg (recurse cfg fuel)
              (fun s u => ih s u) bi _ _ st t2

/-! ## The grid always holds the letters of every assigned slot -/

theorem placeLetters_mono :
    ∀ (pairs : List ((ℕ × ℕ) × Char)) (g : Grid) {rc : ℕ × ℕ} {v : Char},
      g rc = some v → (placeLetters g pairs).2.1 rc = some v := by
  intro pairs
  induction pairs with
  | nil => intro g rc v h; exact h
  | cons p rest ih =>
    intro g rc v h
    obtain ⟨prc, ch⟩ := p
    rcases hg : g prc with _ | e
    · simp only [placeLetters, hg]
      apply ih
      by_cases hrc : rc = prc
      · rw [hrc, hg] at h; exact Option.noConfusion h
      · simp only [gridSet, if_neg hrc]
        exact h
    · simp only [placeLetters, hg]
      by_cases he : e = ch
      · rw [if_pos he]
        exact ih g h
      · rw [if_neg he]
        exact h

theorem placeLetters_places :
    ∀ (pairs : List ((ℕ × ℕ) × Char)) (g : Grid),
      (placeLetters g pairs).1 = false →
      ∀ p ∈ pairs, (placeLetters g pairs).2.1 p.1 = some p.2 := by
  intro pairs
  induction pairs with
  | nil => intro g _ p hp; exact absurd hp (List.not_mem_nil p)
  | cons q rest ih =>
    intro g hnc p hp
    obtain ⟨prc, ch⟩ := q
    rcases hg : g prc with _ | e
    · simp only [placeLetters, hg] at hnc ⊢
      rcases List.mem_cons.mp hp with rfl | hmem
      · exact placeLetters_mono rest (gridSet g prc (some ch))
          (by simp [gridSet])
      · exact ih (gridSet g prc (some ch)) hnc p hmem
    · simp only [placeLetters, hg] at hnc ⊢
      by_cases he : e = ch
      · rw [if_pos he] at hnc ⊢
        rcases List.mem_cons.mp hp with rfl | hmem
        · exact placeLetters_mono rest g (by rw [hg, he])
        · exact ih g hnc p hmem
      · rw [if_neg he] at hnc
        exact Bool.noConfusion hnc

theorem getD_set_self_of_lt {α : Type} {l : List α} {i : ℕ} (v d : α)
    (h : i < l.length) : (l.set i v).getD i d = v := by
  rw [List.getD_eq_getElem?_getD, List.getElem?_set_self h]
  rfl

theorem getD_set_ne_of_ne {α : Type} {l : List α} {i j : ℕ} (v d : α)
    (h : i ≠ j) : (l.set i v).getD j d = l.getD j d := by
  rw [List.getD_eq_getElem?_getD, List.getElem?_set_ne h,
    ← List.getD_eq_getElem?_getD]

theorem zip_getD_mem {a : List (ℕ × ℕ)} {b : List Char} {p : ℕ}
    (hp : p < a.length) (hq : p < b.length) :
    (a.getD p (0, 0), b.getD p ' ') ∈ a.zip b := by
  have hz : p < (a.zip b).length := by
    rw [List.length_zip]; omega
  have h1 : (a.zip b).get ⟨p, hz⟩ = (a.get ⟨p, hp⟩, b.get ⟨p, hq⟩) :=
    List.get_zip ..
  have h2 := List.get_mem (a.zip b) p hz
  rw [h1] at h2
  have h3 : a.getD p (0, 0) = a.get ⟨p, hp⟩ := by
    rw [List.getD_eq_getElem?_getD, List.getElem?_eq_getElem hp]; rfl
  have h4 : b.getD p ' ' = b.get ⟨p, hq⟩ := by
    rw [List.getD_eq_getElem?_getD, List.getElem?_eq_getElem hq]; rfl
  rw [h3, h4]
  exact h2

/-- The invariant carried by the search: `assigned` has one entry per slot,
and the grid holds exactly the letters of every assigned slot's word at
that slot's cells. -/
def SolveInv (cfg : SolverCfg) (st : SolveState) : Prop :=
  st.assigned.length = cfg.slots.length ∧
  ∀ i, i < cfg.slots.length → ∀ w, st.assigned.getD i none = some w →
    ∀ p, p < (cfg.slots.getD i default).cells.length →
      st.grid ((cfg.slots.getD i default).cells.getD p (0, 0)) =
        some (w.data.getD p ' ')

theorem inv_placed (cfg : SolverCfg) (st : SolveState) (bi : ℕ) (cand : Word)
    (hbi : bi < cfg.slots.length)
    (hcells : (cfg.slots.getD bi default).cells.length =
      (cfg.slots.getD bi default).length)
    (hclen : cand.data.length = (cfg.slots.getD bi default).length)
    (hinv : SolveInv cfg st)
    (hnoc : (placeLetters st.grid
      ((cfg.slots.getD bi default).cells.zip cand.data)).1 = false) :
    SolveInv cfg
      ⟨(placeLetters st.grid
          ((cfg.slots.getD bi default).cells.zip cand.data)).2.1,
        st.assigned.set bi (some cand), st.used_words.insert cand⟩ := by
  obtain ⟨hlen, hmatch⟩ := hinv
  refine ⟨by rw [List.length_set]; exact hlen, ?_⟩
  intro i hi w hw p hp
  by_cases hib : i = bi
  · subst hib
    have hset : (st.assigned.set i (some cand)).getD i none = some cand :=
      getD_set_self_of_lt _ _ (by rw [hlen]; exact hi)
    rw [hset] at hw
    injection hw with hw
    subst hw
    have hmem : ((cfg.slots.getD i default).cells.getD p (0, 0),
        cand.data.getD p ' ') ∈ (cfg.slots.getD i default).cells.zip cand.data := by
      refine zip_getD_mem hp ?_
      rw [hclen, ← hcells]
      exact hp
    exact placeLetters_places _ _ hnoc _ hmem
  · have hw2 : st.assigned.getD i none = some w := by
      rw [← hw, getD_set_ne_of_ne _ _ (fun hh => hib hh.symm)]
    exact placeLetters_mono _ _ (hmatch i hi w hw2 p hp)

/-- The selected slot index is in range, unassigned, and its candidate
list is `get_candidates` of that very slot. -/
theorem selectSlotGo_ident (cfg : SolverCfg) (st : SolveState) :
    ∀ (L : List (ℕ × Slot)) (best : Option (ℕ × List Word)) (bi : ℕ)
      (cands : List Word),
      (∀ p ∈ L, p.1 < cfg.slots.length ∧ p.2 = cfg.slots.getD p.1 default) →
      (∀ bi0 c0, best = some (bi0, c0) →
        bi0 < cfg.slots.length ∧ st.assigned.getD bi0 none = none ∧
        c0 = get_candidates (cfg.slots.getD bi0 default).length
          (pattern_for_slot st.grid (cfg.slots.getD bi0 default))
          st.used_words cfg.words_by_length cfg.position_index) →
      selectSlotGo cfg st L best = some (some (bi, cands)) →
      bi < cfg.slots.length ∧ st.assigned.getD bi none = none ∧
      cands = get_candidates (cfg.slots.getD bi default).length
        (pattern_for_slot st.grid (cfg.slots.getD bi default))
        st.used_words cfg.words_by_length cfg.position_index := by
  intro L
  induction L with
  | nil =>
    intro best bi cands _ hinv h
    simp only [selectSlotGo, Option.some.injEq] at h
    exact hinv bi cands h
  | cons q rest ih =>
    intro best bi cands hL hinv h
    obtain ⟨i, slot⟩ := q
    have hq := hL (i, slot) (List.mem_cons_self ..)
    have hrest : ∀ p ∈ rest, p.1 < cfg.slots.length ∧
        p.2 = cfg.slots.getD p.1 default :=
      fun p hp => hL p (List.mem_cons_of_mem _ hp)
    rcases hass : st.assigned.getD i none with _ | w
    · rcases best with _ | ⟨bi0, bc0⟩
      · simp only [selectSlotGo, hass] at h
        by_cases hemp : (get_candidates slot.length
            (pattern_for_slot st.grid slot) st.used_words
            cfg.words_by_length cfg.position_index).isEmpty = true
        · rw [if_pos hemp] at h; exact Option.noConfusion h
        · rw [if_neg hemp] at h
          refine ih _ bi cands hrest (fun bi1 c1 he => ?_) h
          injection he with he1
          injection he1 with h1 h2
          subst h1
          subst h2
          exact ⟨hq.1, hass, by rw [← hq.2]⟩
      · simp only [selectSlotGo, hass] at h
        by_cases hemp : (get_candidates slot.length
            (pattern_for_slot st.grid slot) st.used_words
            cfg.words_by_length cfg.position_index).isEmpty = true
        · rw [if_pos hemp] at h; exact Option.noConfusion h
        · rw [if_neg hemp] at h
          by_cases hlt : (get_candidates slot.length
              (pattern_for_slot st.grid slot) st.used_words
              cfg.words_by_length cfg.position_index).length < bc0.length
          · rw [if_pos hlt] at h
            refine ih _ bi cands hrest (fun bi1 c1 he => ?_) h
            injection he with he1
            injection he1 with h1 h2
            subst h1
            subst h2
            exact ⟨hq.1, hass, by rw [← hq.2]⟩
          · rw [if_neg hlt] at h
            refine ih _ bi cands hrest (fun bi1 c1 he => ?_) h
            injection he with he1
            injection he1 with h1 h2
            exact hinv bi1 c1 (by rw [h1, h2])
    · simp only [selectSlotGo, hass] at h
      exact ih best bi cands hrest hinv h

theorem selectSlot_ident (cfg : SolverCfg) (st : SolveState) {bi : ℕ}
    {cands : List Word}
    (h : selectSlot cfg st = some (some (bi, cands))) :
    bi < cfg.slots.length ∧ st.assigned.getD bi none = none ∧
    cands = get_candidates (cfg.slots.getD bi default).length
      (pattern_for_slot st.grid (cfg.slots.getD bi default))
      st.used_words cfg.words_by_length cfg.position_index := by
  refine selectSlotGo_ident cfg st _ none bi cands (fun p hp => ?_)
    (fun _ _ he => by cases he) h
  have h2 := List.mem_enum_iff_getElem?.mp hp
  have h3 : p.1 < cfg.slots.length := by
    rcases List.getElem?_eq_some_iff.mp h2 with ⟨hlt, _⟩
    exact hlt
  refine ⟨h3, ?_⟩
  rw [List.getD_eq_getElem?_getD, h2]
  rfl

/-- Every member of a non-degenerate candidate pool lies in one of the
position-index buckets. -/
theorem candidatePool_some_sub (pidx : ℕ → ℕ → Char → List Word) (L : ℕ) :
    ∀ (ps : List (ℕ × Char)) (p q : List Word),
      candidatePool pidx L ps (some p) = some q → ∀ w ∈ q, w ∈ p := by
  intro ps
  induction ps with
  | nil =>
    intro p q h w hw
    injection h with h
    rw [← h] at hw
    exact hw
  | cons pc rest ih =>
    intro p q h w hw
    obtain ⟨i, ch⟩ := pc
    by_cases hdot : ch = '.'
    · simp only [candidatePool, if_pos hdot] at h
      exact ih p q h w hw
    · simp only [candidatePool, if_neg hdot] at h
      have := ih _ q h w hw
      exact (List.mem_filter.mp this).1

theorem candidatePool_none_sub (pidx : ℕ → ℕ → Char → List Word) (L : ℕ) :
    ∀ (ps : List (ℕ × Char)) (q : List Word),
      candidatePool pidx L ps none = some q →
      ∃ i ch, ∀ w ∈ q, w ∈ pidx L i ch := by
  intro ps
  induction ps with
  | nil => intro q h; exact Option.noConfusion h
  | cons pc rest ih =>
    intro q h
    obtain ⟨i, ch⟩ := pc
    by_cases hdot : ch = '.'
    · simp only [candidatePool, if_pos hdot] at h
      exact ih q h
    · simp only [candidatePool, if_neg hdot] at h
      exact ⟨i, ch, candidatePool_some_sub pidx L rest _ q h⟩

theorem build_position_index_sub {wbl : ℕ → List Word} {n i : ℕ} {ch : Char}
    {x : Word} (hx : x ∈ build_position_index wbl n i ch) : x ∈ wbl n :=
  (List.mem_filter.mp hx).1

theorem get_candidates_length {w : Word} {L : ℕ} {pattern : List Char}
    {used : List Word} {wbl : ℕ → List Word}
    {pidx : ℕ → ℕ → Char → List Word}
    (hw : w ∈ get_candidates L pattern used wbl pidx)
    (hwbl : ∀ x, x ∈ wbl L → x.data.length = L)
    (hpidx : ∀ i ch x, x ∈ pidx L i ch → x.data.length = L) :
    w.data.length = L := by
  rw [get_candidates] at hw
  rw [List.mem_insertionSort, List.mem_dedup, List.mem_filter] at hw
  rcases hpool : candidatePool pidx L pattern.enum none with _ | q
  · rw [hpool] at hw
    exact hwbl w hw.1
  · rw [hpool] at hw
    obtain ⟨i, ch, hsub⟩ := candidatePool_none_sub pidx L pattern.enum q hpool
    exact hpidx i ch w (hsub w hw.1)

theorem tryCands_preserves_inv (cfg : SolverCfg)
    (rec : SolveState × ℕ → Bool × SolveState × ℕ)
    (hrecT : ∀ s u, SolveInv cfg s → (rec (s, u)).1 = true →
      SolveInv cfg ((rec (s, u)).2.1))
    (hrecF : ∀ s u, (rec (s, u)).1 = false → (rec (s, u)).2.1 = s)
    (bi : ℕ) (hbi : bi < cfg.slots.length)
    (hcells : (cfg.slots.getD bi default).cells.length =
      (cfg.slots.getD bi default).length) :
    ∀ (cands : List Word) (st : SolveState) (t : ℕ),
      SolveInv cfg st → st.assigned.getD bi none = none →
      (∀ c ∈ cands, c ∉ st.used_words ∧
        c.data.length = (cfg.slots.getD bi default).length) →
      (tryCands cfg rec bi (cfg.slots.getD bi default) cands st t).1 = true →
      SolveInv cfg
        ((tryCands cfg rec bi (cfg.slots.getD bi default) cands st t).2.1) := by
  intro cands
  induction cands with
  | nil => intro st t _ _ _ h; exact Bool.noConfusion h
  | cons cand rest ih =>
    intro st t hinv hassn hcs h
    by_cases hskip : themeSkip cfg st cand = true
    · simp only [tryCands, if_pos hskip] at h ⊢
      exact ih st t hinv hassn (fun c hc => hcs c (List.mem_cons_of_mem _ hc)) h
    · simp only [tryCands, if_neg hskip] at h ⊢
      by_cases hatt : (attemptCandidate cfg rec bi (cfg.slots.getD bi default)
          cand st t).1 = true
      · rw [if_pos hatt] at h ⊢
        refine attemptCandidate_success cfg rec (SolveInv cfg) bi _ cand st t
          (fun hnoc hb => ?_) hatt
        exact hrecT _ t
          (inv_placed cfg st bi cand hbi hcells
            (hcs cand (List.mem_cons_self ..)).2 hinv hnoc) hb
      · rw [if_neg hatt] at h ⊢
        have hst : (attemptCandidate cfg rec bi (cfg.slots.getD bi default)
            cand st t).2.1 = st :=
          attemptCandidate_restore cfg rec hrecF bi _ cand st t hassn
            (hcs cand (List.mem_cons_self ..)).1 (Bool.not_eq_true _ ▸ hatt)
        rw [hst] at h ⊢
        exact ih st _ hinv hassn (fun c hc => hcs c (List.mem_cons_of_mem _ hc)) h

theorem recurse_preserves_inv (cfg : SolverCfg)
    (hwctf : ∀ s ∈ cfg.slots, s.cells.length = s.length)
    (hwbl : ∀ n x, x ∈ cfg.words_by_length n → x.data.length = n)
    (hpidx : ∀ n i ch x, x ∈ cfg.position_index n i ch → x.data.length = n) :
    ∀ (fuel : ℕ) (st : SolveState) (t : ℕ),
      SolveInv cfg st → (recurse cfg fuel (st, t)).1 = true →
      SolveInv cfg ((recurse cfg fuel (st, t)).2.1) := by
  intro fuel
  induction fuel with
  | zero => intro st t _ h; exact Bool.noConfusion h
  | succ fuel ih =>
    intro st t hinv h
    by_cases hall : st.assigned.all (fun o => o.isSome) = true
    · simp only [recurse, if_pos hall] at h ⊢
      exact hinv
    · simp only [recurse, if_neg hall] at h ⊢
      rcases hsel : selectSlot cfg st with _ | sel
      · simp [hsel] at h
      · rcases sel with _ | ⟨bi, cands⟩
        · simp [hsel] at h
        · simp only [hsel] at h ⊢
          unfold branchStep at h ⊢
          rcases hrank : rankCandidates cfg cands t with _ | ⟨ranked, t2⟩
          · simp [hrank] at h
          · simp only [hrank] at h ⊢
            obtain ⟨hbilt, hassn, hcands⟩ := selectSlot_ident cfg st hsel
            refine tryCands_preserves_inv cfg (recurse cfg fuel)
              (fun s u => ih s u) (fun s u => recurse_restore cfg fuel s u)
              bi hbilt (hwctf _ (getD_mem_of_lt hbilt default))
              (ranked.take MAX_CANDIDATES_PER_SLOT) st t2 hinv hassn ?_ h
            intro c hc
            have hc1 : c ∈ ranked := List.mem_of_mem_take hc
            have hc2 : c ∈ cands := rankCandidates_mem hrank c hc1
            rw [hcands] at hc2
            refine ⟨get_candidates_not_used hc2, ?_⟩
            exact get_candidates_length hc2 (fun x hx => hwbl _ x hx)
              (fun i ch x hx => hpidx _ i ch x hx)

/-! ## From a successful solve to the returned word list -/

theorem filterMap_id_all_some :
    ∀ (l : List (Option Word)), l.all (fun o => o.isSome) = true →
      (l.filterMap id).length = l.length ∧
      ∀ i, (l.filterMap id).getD i "" = (l.getD i none).getD "" := by
  intro l
  induction l with
  | nil => intro _; exact ⟨rfl, fun i => by cases i <;> rfl⟩
  | cons o rest ih =>
    intro h
    rw [List.all_cons, Bool.and_eq_true] at h
    rcases o with _ | a
    · exact absurd h.1 (by simp)
    · obtain ⟨ihl, ihp⟩ := ih h.2
      constructor
      · show (a :: rest.filterMap id).length = rest.length + 1
        rw [List.length_cons, ihl]
      · intro i
        cases i with
        | zero => rfl
        | succ n =>
          show (rest.filterMap id).getD n "" = (rest.getD n none).getD ""
          exact ihp n

theorem solve_template_some {cfg : SolverCfg} {seed : ℕ} {ws : List Word}
    (h : solve_template cfg seed = some ws) :
    (recurse cfg (cfg.slots.length + 1)
      (initialState cfg, seed &&& 0xFFFFFFFF)).1 = true ∧
    ws = ((recurse cfg (cfg.slots.length + 1)
      (initialState cfg, seed &&& 0xFFFFFFFF)).2.1).assigned.filterMap id := by
  unfold solve_template at h
  by_cases hflag : (recurse cfg (cfg.slots.length + 1)
      (initialState cfg, seed &&& 0xFFFFFFFF)).1 = true
  · rw [if_pos hflag] at h
    injection h with h
    exact ⟨hflag, h.symm⟩
  · rw [if_neg hflag] at h
    exact Option.noConfusion h

theorem replicate_none_getD (n i : ℕ) :
    (List.replicate n (none : Option Word)).getD i none = none := by
  induction n generalizing i with
  | zero => cases i <;> rfl
  | succ m ih =>
    cases i with
    | zero => rfl
    | succ k => exact ih k

/-- The across and down word sequences of a solved grid, in slot order
(the split of source lines 272-283). -/
def acrossWordsOf (slots : List Slot) (ws : List Word) : List Word :=
  ((slots.zip ws).filter (fun p => decide (p.1.direction = "across"))).map Prod.snd

def downWordsOf (slots : List Slot) (ws : List Word) : List Word :=
  ((slots.zip ws).filter (fun p => !decide (p.1.direction = "across"))).map Prod.snd

theorem collectWordsGo_eq (cfg : SolverCfg) :
    ∀ (slots : List Slot) (i : ℕ) (assigned : List (Option Word))
      (ws : List Word) (a d : List Word),
      (∀ k, k < slots.length → assigned.getD (i + k) none = some (ws.getD k "")) →
      ws.length = slots.length →
      collectWordsGo cfg assigned slots i = some (a, d) →
      a = acrossWordsOf slots ws ∧ d = downWordsOf slots ws ∧
      ∀ p ∈ slots.zip ws, p.2 ∈ cfg.word_set_by_length p.1.length := by
  intro slots
  induction slots with
  | nil =>
    intro i assigned ws a d _ _ h
    injection h with h
    injection h with h1 h2
    refine ⟨h1.symm ▸ ?_, h2.symm ▸ ?_, ?_⟩
    · rw [acrossWordsOf, List.zip_nil_left]; rfl
    · rw [downWordsOf, List.zip_nil_left]; rfl
    · intro p hp
      rw [List.zip_nil_left] at hp
      exact absurd hp (List.not_mem_nil p)
  | cons slot rest ih =>
    intro i assigned ws a d hpt hlen h
    rcases ws with _ | ⟨w, ws2⟩
    · exact absurd hlen.symm (by simp)
    · have h0 := hpt 0 (by simp)
      rw [Nat.add_zero] at h0
      simp only [collectWordsGo, h0, List.getD_cons_zero] at h
      by_cases hmemw : w ∈ cfg.word_set_by_length slot.length
      · rw [if_pos hmemw] at h
        rcases hcol : collectWordsGo cfg assigned rest (i + 1) with _ | ⟨a2, d2⟩
        · rw [hcol] at h; exact Option.noConfusion h
        · rw [hcol] at h
          have hif : (if slot.direction = "across"
              then some ((w :: a2, d2) : List Word × List Word)
              else some (a2, w :: d2)) = some (a, d) := h
          have hlen2 : ws2.length = rest.length := by
            rw [List.length_cons, List.length_cons] at hlen
            omega
          have hpt2 : ∀ k, k < rest.length →
              assigned.getD (i + 1 + k) none = some (ws2.getD k "") := by
            intro k hk
            have := hpt (k + 1) (by rw [List.length_cons]; omega)
            rw [show i + (k + 1) = i + 1 + k by omega] at this
            exact this
          obtain ⟨ha2, hd2, hmem2⟩ := ih (i + 1) assigned ws2 a2 d2 hpt2 hlen2 hcol
          have hzip : (slot :: rest).zip (w :: ws2) = (slot, w) :: rest.zip ws2 := rfl
          by_cases hdir : slot.direction = "across"
          · rw [if_pos hdir] at hif
            injection hif with hif
            injection hif with h1 h2
            refine ⟨?_, ?_, ?_⟩
            · rw [← h1, ha2, acrossWordsOf, acrossWordsOf, hzip,
                List.filter_cons_of_pos (by simp [hdir]), List.map_cons]
            · rw [← h2, hd2, downWordsOf, downWordsOf, hzip,
                List.filter_cons_of_neg (by simp [hdir])]
            · intro p hp
              rw [hzip] at hp
              rcases List.mem_cons.mp hp with rfl | hp2
              · exact hmemw
              · exact hmem2 p hp2
          · rw [if_neg hdir] at hif
            injection hif with hif
            injection hif with h1 h2
            refine ⟨?_, ?_, ?_⟩
            · rw [← h1, ha2, acrossWordsOf, acrossWordsOf, hzip,
                List.filter_cons_of_neg (by simp [hdir])]
            · rw [← h2, hd2, downWordsOf, downWordsOf, hzip,
                List.filter_cons_of_pos (by simp [hdir]), List.map_cons]
            · intro p hp
              rw [hzip] at hp
              rcases List.mem_cons.mp hp with rfl | hp2
              · exact hmemw
              · exact hmem2 p hp2
      · rw [if_neg hmemw] at h
        exact Option.noConfusion h

theorem final_constraints_collect {cfg : SolverCfg}
    {assigned : List (Option Word)}
    (h : final_constraints_hold cfg assigned = true) :
    ∃ a d, collectWordsGo cfg assigned cfg.slots 0 = some (a, d) := by
  rw [final_constraints_hold] at h
  rcases hcol : collectWordsGo cfg assigned cfg.slots 0 with _ | ⟨a, d⟩
  · rw [hcol] at h; exact Bool.noConfusion h
  · exact ⟨a, d, rfl⟩

theorem final_constraints_unpack {cfg : SolverCfg}
    {assigned : List (Option Word)} {a d : List Word}
    (hcol : collectWordsGo cfg assigned cfg.slots 0 = some (a, d))
    (h : final_constraints_hold cfg assigned = true) :
    a.Nodup ∧ d.Nodup ∧ ∀ w ∈ a, w ∉ d := by
  rw [final_constraints_hold, hcol] at h
  simp only [Bool.and_eq_true, decide_eq_true_eq, List.all_eq_true] at h
  refine ⟨h.1.1.1, h.1.1.2, fun w hw => ?_⟩
  have := h.1.2 w hw
  simpa using this

/-- The pointwise hypothesis of `collectWordsGo_eq`, for the final state of
a successful solve. -/
theorem assigned_pointwise {cfg : SolverCfg} {stf : SolveState}
    (hall : stf.assigned.all (fun o => o.isSome) = true)
    (hlen : stf.assigned.length = cfg.slots.length) :
    ∀ k, k < cfg.slots.length →
      stf.assigned.getD (0 + k) none =
        some ((stf.assigned.filterMap id).getD k "") := by
  intro k hk
  rw [Nat.zero_add]
  have hk2 : k < stf.assigned.length := by omega
  have hmem : stf.assigned.getD k none ∈ stf.assigned := getD_mem_of_lt hk2 none
  have hsome := (List.all_eq_true.mp hall) _ hmem
  rcases hx : stf.assigned.getD k none with _ | a
  · rw [hx] at hsome; exact Bool.noConfusion hsome
  · obtain ⟨-, hpt⟩ := filterMap_id_all_some stf.assigned hall
    rw [hpt k, hx]
    rfl

/-- C4: whenever `solve_template` returns a word list, the across words
are pairwise distinct, the down words are pairwise distinct, no word is
both an across and a down word, and every assigned word belongs to the
length-indexed word set of its slot's length. -/
theorem solved_words_distinct_and_in_lexicon (cfg : SolverCfg) (seed : ℕ)
    (ws : List Word) (h : solve_template cfg seed = some ws) :
    ws.length = cfg.slots.length ∧
    (acrossWordsOf cfg.slots ws).Nodup ∧
    (downWordsOf cfg.slots ws).Nodup ∧
    (∀ w ∈ acrossWordsOf cfg.slots ws, w ∉ downWordsOf cfg.slots ws) ∧
    ∀ p ∈ cfg.slots.zip ws, p.2 ∈ cfg.word_set_by_length p.1.length := by
  obtain ⟨hflag, hws⟩ := solve_template_some h
  obtain ⟨hall, hfinal⟩ := recurse_success cfg _ _ _ hflag
  have hlen : ((recurse cfg (cfg.slots.length + 1)
      (initialState cfg, seed &&& 0xFFFFFFFF)).2.1).assigned.length =
      cfg.slots.length := by
    rw [recurse_length]
    exact List.length_replicate ..
  obtain ⟨a, d, hcol⟩ := final_constraints_collect hfinal
  have hwslen : ws.length = cfg.slots.length := by
    rw [hws, (filterMap_id_all_some _ hall).1, hlen]
  obtain ⟨ha, hd, hmem⟩ := collectWordsGo_eq cfg cfg.slots 0 _ ws a d
    (by rw [hws]; exact assigned_pointwise hall hlen) hwslen hcol
  obtain ⟨hna, hnd, hdisj⟩ := final_constraints_unpack hcol hfinal
  exact ⟨hwslen, ha ▸ hna, hd ▸ hnd, fun w hw => hd ▸ (hdisj w (ha ▸ hw)),
    hmem⟩

/-- Witness for C4 at the concrete 3x3 configuration, seed 7. -/
theorem solved_words_distinct_and_in_lexicon_witness :
    (["CAT", "COW", "ARE", "TED", "ORE", "WED"] : List Word).length =
      exCfg.slots.length ∧
    (acrossWordsOf exCfg.slots ["CAT", "COW", "ARE", "TED", "ORE", "WED"]).Nodup ∧
    (downWordsOf exCfg.slots ["CAT", "COW", "ARE", "TED", "ORE", "WED"]).Nodup ∧
    (∀ w ∈ acrossWordsOf exCfg.slots ["CAT", "COW", "ARE", "TED", "ORE", "WED"],
      w ∉ downWordsOf exCfg.slots ["CAT", "COW", "ARE", "TED", "ORE", "WED"]) ∧
    ∀ p ∈ exCfg.slots.zip ["CAT", "COW", "ARE", "TED", "ORE", "WED"],
      p.2 ∈ exCfg.word_set_by_length p.1.length :=
  solved_words_distinct_and_in_lexicon exCfg 7
    ["CAT", "COW", "ARE", "TED", "ORE", "WED"] (by decide)

/-- C3: whenever `solve_template` returns a word list, for every grid cell
shared by an across slot and a down slot, the across word's letter at that
cell equals the down word's letter at that cell.  (The well-formedness
hypotheses state that slots list exactly their cells and that the
length-indexed word lists and position-index buckets contain only words of
the right length, as built by `main`.) -/
theorem solved_crossings_agree (cfg : SolverCfg) (seed : ℕ) (ws : List Word)
    (hwf1 : ∀ s ∈ cfg.slots, s.cells.length = s.length)
    (hwf2 : ∀ n x, x ∈ cfg.words_by_length n → x.data.length = n)
    (hwf3 : ∀ n i ch x, x ∈ cfg.position_index n i ch → x.data.length = n)
    (h : solve_template cfg seed = some ws) :
    ∀ i j, i < cfg.slots.length → j < cfg.slots.length →
      (cfg.slots.getD i default).direction = "across" →
      (cfg.slots.getD j default).direction = "down" →
      ∀ p q, p < (cfg.slots.getD i default).cells.length →
        q < (cfg.slots.getD j default).cells.length →
        (cfg.slots.getD i default).cells.getD p (0, 0) =
          (cfg.slots.getD j default).cells.getD q (0, 0) →
        (ws.getD i "").data.getD p ' ' = (ws.getD j "").data.getD q ' ' := by
  obtain ⟨hflag, hws⟩ := solve_template_some h
  obtain ⟨hall, -⟩ := recurse_success cfg _ _ _ hflag
  have hinv0 : SolveInv cfg (initialState cfg) := by
    refine ⟨List.length_replicate .., ?_⟩
    intro i _ w hw
    rw [show (initialState cfg).assigned = List.replicate cfg.slots.length none
      from rfl, replicate_none_getD] at hw
    exact Option.noConfusion hw
  obtain ⟨hlen, hmatch⟩ := recurse_preserves_inv cfg hwf1 hwf2 hwf3 _ _ _
    hinv0 hflag
  intro i j hi hj _ _ p q hp hq hcell
  have hpt := assigned_pointwise hall hlen
  have hwi : ((recurse cfg (cfg.slots.length + 1)
      (initialState cfg, seed &&& 0xFFFFFFFF)).2.1).assigned.getD i none =
      some (ws.getD i "") := by
    rw [hws]
    have := hpt i hi
    rwa [Nat.zero_add] at this
  have hwj : ((recurse cfg (cfg.slots.length + 1)
      (initialState cfg, seed &&& 0xFFFFFFFF)).2.1).assigned.getD j none =
      some (ws.getD j "") := by
    rw [hws]
    have := hpt j hj
    rwa [Nat.zero_add] at this
  have hgi := hmatch i hi _ hwi p hp
  have hgj := hmatch j hj _ hwj q hq
  rw [hcell] at hgi
  rw [hgi] at hgj
  injection hgj

/-- Witness for C3 at the concrete 3x3 configuration, seed 7. -/
theorem solved_crossings_agree_witness :
    solve_template exCfg 7 = some ["CAT", "COW", "ARE", "TED", "ORE", "WED"] ∧
    (exCfg.slots.getD 0 default).direction = "across" ∧
    (exCfg.slots.getD 2 default).direction = "down" ∧
    (exCfg.slots.getD 0 default).cells.getD 1 (0, 0) =
      (exCfg.slots.getD 2 default).cells.getD 0 (0, 0) ∧
    ((["CAT", "COW", "ARE", "TED", "ORE", "WED"] : List Word).getD 0 "").data.getD 1 ' ' =
      ((["CAT", "COW", "ARE", "TED", "ORE", "WED"] : List Word).getD 2 "").data.getD 0 ' ' := by
  refine ⟨by decide, by decide, by decide, by decide, ?_⟩
  refine solved_crossings_agree exCfg 7 ["CAT", "COW", "ARE", "TED", "ORE", "WED"]
    (by decide) ?_ ?_ (by decide) 0 2 (by decide) (by decide) (by decide)
    (by decide) 1 0 (by decide) (by decide) (by decide)
  · intro n x hx
    by_cases h3 : n = 3
    · subst h3
      have hx2 : x ∈ exWords := hx
      fin_cases hx2 <;> rfl
    · rw [show exCfg.words_by_length = exWbl from rfl, exWbl, if_neg h3] at hx
      exact absurd hx (List.not_mem_nil x)
  · intro n i ch x hx
    have hx2 : x ∈ exWbl n := build_position_index_sub hx
    by_cases h3 : n = 3
    · subst h3
      have hx3 : x ∈ exWords := hx2
      fin_cases hx3 <;> rfl
    · rw [exWbl, if_neg h3] at hx2
      exact absurd hx2 (List.not_mem_nil x)

/-- Witness for C5: fuel 0 makes the recursion fail, so the attempt of
`CAT` on the first across slot of the fresh 3x3 state fails and the state
is restored exactly. -/
theorem candidate_failure_restores_state_witness :
    (attemptCandidate exCfg (recurse exCfg 0) 0 (exSlotA 0) "CAT"
      (initialState exCfg) 7).1 = false ∧
    (attemptCandidate exCfg (recurse exCfg 0) 0 (exSlotA 0) "CAT"
      (initialState exCfg) 7).2.1 = initialState exCfg :=
  ⟨by decide,
   candidate_failure_restores_state exCfg 0 0 (exSlotA 0) "CAT"
     (initialState exCfg) 7 (by decide) (by decide) (by decide)⟩

/-! ## C2: order of difficulty filtering and shuffling -/

/-- The candidate ordering as claim C2 states it: first shuffle the full
candidate list with the seeded PRNG, only then filter out hard words. -/
def rankCandidatesShuffleFirst (cfg : SolverCfg) (cands : List Word) (t : ℕ) :
    Option (List Word × ℕ) :=
  let sh := shuffle cands t
  if cfg.allow_hard_words then some sh
  else
    let non_hard := sh.1.filter (is_non_hard cfg)
    if non_hard.isEmpty then none else some (non_hard, sh.2)

def exEntriesHard : Word → EntryMeta := fun w =>
  if w = "CCC" then ⟨w, ["clue"], "hard", [], false⟩
  else ⟨w, ["clue"], "easy", [], false⟩

def exCfgHard : SolverCfg :=
  ⟨exCfg.slots, 3, fun _ _ => false, "t", exWbl, build_word_set exWbl,
   build_position_index exWbl, build_pfx_index exWbl, exEntriesHard, false, false⟩

/-- C2 counterexample: with `allowHardWords` false, candidates
`[AAA, BBB, CCC]` (only `CCC` hard) and PRNG state `2`, the solver filters
first and then shuffles, producing the order `[AAA, BBB]` (one `rand`
call), while the claimed shuffle-then-filter order is `[BBB, AAA]` (two
`rand` calls): the claim's attempted order is wrong on this input. -/
theorem rank_order_differs_from_claim :
    rankCandidates exCfgHard ["AAA", "BBB", "CCC"] 2 =
      some (["AAA", "BBB"], 1831565815) ∧
    rankCandidatesShuffleFirst exCfgHard ["AAA", "BBB", "CCC"] 2 =
      some (["BBB", "AAA"], 3663131628) ∧
    rankCandidates exCfgHard ["AAA", "BBB", "CCC"] 2 ≠
      rankCandidatesShuffleFirst exCfgHard ["AAA", "BBB", "CCC"] 2 := by
  refine ⟨by decide, by decide, by decide⟩

/-- C2 amended: when `allowHardWords` is false the solver filters the
chosen slot's candidate list to non-hard words FIRST (failing the branch
when none remain) and only then shuffles the filtered list with the seeded
PRNG; the surviving candidates are attempted in the shuffle order of the
FILTERED list, and every attempted candidate is a non-hard member of the
original candidate list. -/
theorem rank_filters_then_shuffles (cfg : SolverCfg) (cands : List Word)
    (t : ℕ) (h : cfg.allow_hard_words = false) :
    rankCandidates cfg cands t =
      (if (cands.filter (is_non_hard cfg)).isEmpty then none
       else some (shuffle (cands.filter (is_non_hard cfg)) t)) ∧
    ∀ ranked t2, rankCandidates cfg cands t = some (ranked, t2) →
      ∀ w ∈ ranked, w ∈ cands ∧ is_non_hard cfg w = true := by
  constructor
  · rw [rankCandidates, h]
    simp only [Bool.false_eq_true, if_false]
  · intro ranked t2 hr w hw
    refine ⟨rankCandidates_mem hr w hw, ?_⟩
    rw [rankCandidates, h] at hr
    simp only [Bool.false_eq_true, if_false] at hr
    by_cases hemp : (cands.filter (is_non_hard cfg)).isEmpty = true
    · rw [if_pos hemp] at hr; cases hr
    · rw [if_neg hemp] at hr
      injection hr with hr
      have h1 : ranked = (shuffle (cands.filter (is_non_hard cfg)) t).1 := by
        rw [hr]
      have h2 := mem_of_mem_shuffle (h1 ▸ hw)
      exact (List.mem_filter.mp h2).2

/-- Witness for the amended C2 theorem at the counterexample input. -/
theorem rank_filters_then_shuffles_witness :
    rankCandidates exCfgHard ["AAA", "BBB", "CCC"] 2 =
      (if ((["AAA", "BBB", "CCC"] : List Word).filter
          (is_non_hard exCfgHard)).isEmpty then none
       else some (shuffle ((["AAA", "BBB", "CCC"] : List Word).filter
          (is_non_hard exCfgHard)) 2)) ∧
    ∀ ranked t2,
      rankCandidates exCfgHard ["AAA", "BBB", "CCC"] 2 = some (ranked, t2) →
      ∀ w ∈ ranked, w ∈ (["AAA", "BBB", "CCC"] : List Word) ∧
        is_non_hard exCfgHard w = true :=
  rank_filters_then_shuffles exCfgHard ["AAA", "BBB", "CCC"] 2 (by decide)

/-! ## C6: candidate-set characterization and minimum-remaining-values
slot selection -/

theorem getD_eq_getD_of_lt {α : Type} {l : List α} {i : ℕ}
    (h : i < l.length) (d1 d2 : α) : l.getD i d1 = l.getD i d2 := by
  rw [List.getD_eq_getElem?_getD, List.getD_eq_getElem?_getD,
    List.getElem?_eq_getElem h]
  rfl

theorem candPool_some_spec (pidx : ℕ → ℕ → Char → List Word) (L : ℕ) :
    ∀ (ps : List (ℕ × Char)) (p : List Word), ∃ q,
      candidatePool pidx L ps (some p) = some q ∧
      ∀ w, w ∈ q ↔ (w ∈ p ∧ ∀ pc ∈ ps, pc.2 ≠ '.' → w ∈ pidx L pc.1 pc.2) := by
  intro ps
  induction ps with
  | nil =>
    intro p
    refine ⟨p, rfl, fun w => ?_⟩
    constructor
    · intro hw
      exact ⟨hw, fun pc hpc => absurd hpc (List.not_mem_nil pc)⟩
    · intro hw; exact hw.1
  | cons pc0 rest ih =>
    intro p
    obtain ⟨i, ch⟩ := pc0
    by_cases hdot : ch = '.'
    · obtain ⟨q, hq, hiff⟩ := ih p
      refine ⟨q, by simpa [candidatePool, hdot] using hq, fun w => ?_⟩
      rw [hiff w]
      constructor
      · rintro ⟨hwp, hrest⟩
        refine ⟨hwp, fun pc hpc hne => ?_⟩
        rcases List.mem_cons.mp hpc with rfl | hmem
        · exact absurd hdot hne
        · exact hrest pc hmem hne
      · rintro ⟨hwp, hall⟩
        exact ⟨hwp, fun pc hmem hne => hall pc (List.mem_cons_of_mem _ hmem) hne⟩
    · obtain ⟨q, hq, hiff⟩ := ih (p.filter (· ∈ pidx L i ch))
      refine ⟨q, by simpa [candidatePool, hdot] using hq, fun w => ?_⟩
      rw [hiff w, List.mem_filter]
      constructor
      · rintro ⟨⟨hwp, hbk⟩, hrest⟩
        refine ⟨hwp, fun pc hpc hne => ?_⟩
        rcases List.mem_cons.mp hpc with rfl | hmem
        · simpa using hbk
        · exact hrest pc hmem hne
      · rintro ⟨hwp, hall⟩
        exact ⟨⟨hwp, by simpa using hall (i, ch) (List.mem_cons_self ..) hdot⟩,
          fun pc hmem hne => hall pc (List.mem_cons_of_mem _ hmem) hne⟩

theorem candPool_none_spec (pidx : ℕ → ℕ → Char → List Word) (L : ℕ) :
    ∀ (ps : List (ℕ × Char)),
      (candidatePool pidx L ps none = none ∧ ∀ pc ∈ ps, pc.2 = '.') ∨
      (∃ q, candidatePool pidx L ps none = some q ∧
        ∀ w, w ∈ q ↔ ∀ pc ∈ ps, pc.2 ≠ '.' → w ∈ pidx L pc.1 pc.2) := by
  intro ps
  induction ps with
  | nil => exact Or.inl ⟨rfl, fun pc hpc => absurd hpc (List.not_mem_nil pc)⟩
  | cons pc0 rest ih =>
    obtain ⟨i, ch⟩ := pc0
    by_cases hdot : ch = '.'
    · rcases ih with ⟨hnone, halldot⟩ | ⟨q, hq, hiff⟩
      · refine Or.inl ⟨by simpa [candidatePool, hdot] using hnone, ?_⟩
        intro pc hpc
        rcases List.mem_cons.mp hpc with rfl | hmem
        · exact hdot
        · exact halldot pc hmem
      · refine Or.inr ⟨q, by simpa [candidatePool, hdot] using hq, fun w => ?_⟩
        rw [hiff w]
        constructor
        · intro hall pc hpc hne
          rcases List.mem_cons.mp hpc with rfl | hmem
          · exact absurd hdot hne
          · exact hall pc hmem hne
        · intro hall pc hmem hne
          exact hall pc (List.mem_cons_of_mem _ hmem) hne
    · obtain ⟨q, hq, hiff⟩ := candPool_some_spec pidx L rest (pidx L i ch)
      refine Or.inr ⟨q, by simpa [candidatePool, hdot] using hq, fun w => ?_⟩
      rw [hiff w]
      constructor
      · rintro ⟨hbk, hrest⟩ pc hpc hne
        rcases List.mem_cons.mp hpc with rfl | hmem
        · exact hbk
        · exact hrest pc hmem hne
      · intro hall
        exact ⟨hall (i, ch) (List.mem_cons_self ..) hdot,
          fun pc hmem hne => hall pc (List.mem_cons_of_mem _ hmem) hne⟩

/-- Membership in a `build_position_index` bucket, spelled out. -/
theorem mem_build_position_index {wbl : ℕ → List Word} {L i : ℕ} {ch : Char}
    {w : Word} :
    w ∈ build_position_index wbl L i ch ↔
      w ∈ wbl L ∧ i < w.data.length ∧ w.data.getD i ch = ch := by
  rw [build_position_index, List.mem_filter]
  simp only [Bool.and_eq_true, decide_eq_true_eq]

/-- The candidate set of `get_candidates` over indexes built by
`build_indexes`: exactly the words of the slot's length that match every
known letter of the pattern and are not already used. -/
theorem get_candidates_mem_iff (wbl : ℕ → List Word) (L : ℕ)
    (pattern : List Char) (used : List Word) (w : Word) :
    w ∈ get_candidates L pattern used wbl (build_position_index wbl) ↔
      (w ∈ wbl L ∧ w ∉ used ∧
        ∀ pi, pi < pattern.length → pattern.getD pi '.' ≠ '.' →
          pi < w.data.length ∧ w.data.getD pi '?' = pattern.getD pi '.') := by
  rw [get_candidates, List.mem_insertionSort, List.mem_dedup, List.mem_filter]
  have henum : ∀ pi, pi < pattern.length →
      (pi, pattern.getD pi '.') ∈ pattern.enum := by
    intro pi hpi
    refine List.mem_enum_iff_getElem?.mpr ?_
    rw [List.getElem?_eq_getElem hpi]
    rw [List.getD_eq_getElem?_getD, List.getElem?_eq_getElem hpi]
    rfl
  have henum2 : ∀ pc, pc ∈ pattern.enum →
      pc.1 < pattern.length ∧ pattern.getD pc.1 '.' = pc.2 := by
    intro pc hpc
    have h2 := List.mem_enum_iff_getElem?.mp hpc
    rcases List.getElem?_eq_some_iff.mp h2 with ⟨hlt, hget⟩
    refine ⟨hlt, ?_⟩
    rw [List.getD_eq_getElem?_getD, h2]
    rfl
  rcases candPool_none_spec (build_position_index wbl) L pattern.enum with
    ⟨hnone, halldot⟩ | ⟨q, hq, hiff⟩
  · rw [hnone]
    simp only [decide_eq_true_eq]
    constructor
    · rintro ⟨hwl, hnu⟩
      refine ⟨hwl, hnu, fun pi hpi hne => ?_⟩
      exact absurd (halldot _ (henum pi hpi)) hne
    · rintro ⟨hwl, hnu, -⟩
      exact ⟨hwl, hnu⟩
  · rw [hq]
    simp only [decide_eq_true_eq]
    constructor
    · rintro ⟨hwq, hnu⟩
      have hall := (hiff w).mp hwq
      constructor
      · rcases candidatePool_none_sub _ L pattern.enum q hq with ⟨i, ch, hsub⟩
        exact (mem_build_position_index.mp (hsub w hwq)).1
      · refine ⟨hnu, fun pi hpi hne => ?_⟩
        have hbk := hall (pi, pattern.getD pi '.') (henum pi hpi) hne
        obtain ⟨-, hlt, hch⟩ := mem_build_position_index.mp hbk
        have hlt2 : pi < w.data.length := hlt
        have hch2 : w.data.getD pi (pattern.getD pi '.') = pattern.getD pi '.' :=
          hch
        refine ⟨hlt2, ?_⟩
        rw [← hch2]
        exact getD_eq_getD_of_lt hlt2 ..
    · rintro ⟨hwl, hnu, hmat⟩
      refine ⟨(hiff w).mpr ?_, hnu⟩
      intro pc hpc hne
      obtain ⟨hlt, hch⟩ := henum2 pc hpc
      rw [← hch] at hne
      obtain ⟨hwlt, hwch⟩ := hmat pc.1 hlt hne
      refine mem_build_position_index.mpr ⟨hwl, hwlt, ?_⟩
      rw [getD_eq_getD_of_lt hwlt pc.2 '?', hwch, hch]

/-- The candidate list of slot `i` in the current state (exactly what the
selection loop computes for an unassigned slot). -/
def candsOf (cfg : SolverCfg) (st : SolveState) (i : ℕ) : List Word :=
  get_candidates (cfg.slots.getD i default).length
    (pattern_for_slot st.grid (cfg.slots.getD i default)) st.used_words
    cfg.words_by_length cfg.position_index

def unassignedAt (st : SolveState) (i : ℕ) : Prop :=
  st.assigned.getD i none = none

/-- The loop invariant of the selection scan after the first `k` slots
have been examined. -/
def bestInv (cfg : SolverCfg) (st : SolveState) (k : ℕ) :
    Option (ℕ × List Word) → Prop
  | none => ∀ j, j < k → ¬unassignedAt st j
  | some (bi, bc) => bi < k ∧ bi < cfg.slots.length ∧ unassignedAt st bi ∧
      bc = candsOf cfg st bi ∧ bc ≠ [] ∧
      (∀ j, j < k → unassignedAt st j → bc.length ≤ (candsOf cfg st j).length) ∧
      (∀ j, j < bi → unassignedAt st j → bc.length < (candsOf cfg st j).length)

theorem drop_cons_getD :
    ∀ (l : List Slot) (k : ℕ) (s : Slot) (r : List Slot),
      l.drop k = s :: r → l.getD k default = s ∧ l.drop (k + 1) = r := by
  intro l
  induction l with
  | nil => intro k s r h; rw [List.drop_nil] at h; exact absurd h (by simp)
  | cons a t ih =>
    intro k s r h
    cases k with
    | zero =>
      rw [List.drop_zero] at h
      injection h with h1 h2
      subst h1
      exact ⟨rfl, by rw [List.drop_succ_cons, List.drop_zero, h2]⟩
    | succ m =>
      rw [List.drop_succ_cons] at h
      obtain ⟨hg, hd⟩ := ih m s r h
      exact ⟨hg, by rw [List.drop_succ_cons]; exact hd⟩

theorem selectSlotGo_mrv (cfg : SolverCfg) (st : SolveState) :
    ∀ (l : List Slot) (k : ℕ) (best : Option (ℕ × List Word)),
      cfg.slots.drop k = l → bestInv cfg st k best →
      (selectSlotGo cfg st (List.enumFrom k l) best = none →
        ∃ j, j < cfg.slots.length ∧ unassignedAt st j ∧ candsOf cfg st j = []) ∧
      (selectSlotGo cfg st (List.enumFrom k l) best = some none →
        ∀ j, j < cfg.slots.length → ¬unassignedAt st j) ∧
      (∀ bi cands,
        selectSlotGo cfg st (List.enumFrom k l) best = some (some (bi, cands)) →
        bi < cfg.slots.length ∧ unassignedAt st bi ∧ cands = candsOf cfg st bi ∧
        cands ≠ [] ∧
        (∀ j, j < cfg.slots.length → unassignedAt st j →
          cands.length ≤ (candsOf cfg st j).length) ∧
        (∀ j, j < bi → unassignedAt st j →
          cands.length < (candsOf cfg st j).length)) := by
  intro l
  induction l with
  | nil =>
    intro k best hdrop hinv
    have hklen : cfg.slots.length ≤ k := by
      have h2 := congrArg List.length hdrop
      rw [List.length_drop] at h2
      simp only [List.length_nil] at h2
      omega
    refine ⟨fun h => ?_, fun h => ?_, fun bi cands h => ?_⟩
    · exact Option.noConfusion h
    · have h2 : (some best : Option (Option (ℕ × List Word))) = some none := h
      injection h2 with h2
      subst h2
      simp only [bestInv] at hinv
      intro j hj
      exact hinv j (by omega)
    · have h2 : (some best : Option (Option (ℕ × List Word))) =
          some (some (bi, cands)) := h
      injection h2 with h2
      subst h2
      simp only [bestInv] at hinv
      obtain ⟨hbik, hbil, hun, hcands, hne, hmin, htie⟩ := hinv
      exact ⟨hbil, hun, hcands, hne, fun j hj hu => hmin j (by omega) hu, htie⟩
  | cons slot rest ih =>
    intro k best hdrop hinv
    obtain ⟨hslot, hdrop2⟩ := drop_cons_getD cfg.slots k slot rest hdrop
    have hklen : k < cfg.slots.length := by
      have h2 := congrArg List.length hdrop
      rw [List.length_drop, List.length_cons] at h2
      omega
    have henum : List.enumFrom k (slot :: rest) =
        (k, slot) :: List.enumFrom (k + 1) rest := rfl
    rw [henum]
    have hck : candsOf cfg st k = get_candidates slot.length
        (pattern_for_slot st.grid slot) st.used_words cfg.words_by_length
        cfg.position_index := by
      unfold candsOf
      rw [hslot]
    rcases hass : st.assigned.getD k none with _ | w
    · have hunk : unassignedAt st k := hass
      by_cases hemp : (get_candidates slot.length (pattern_for_slot st.grid slot)
          st.used_words cfg.words_by_length cfg.position_index).isEmpty = true
      · have hres : selectSlotGo cfg st
            ((k, slot) :: List.enumFrom (k + 1) rest) best = none := by
          simp only [selectSlotGo, hass, if_pos hemp]
        refine ⟨fun _ => ?_, fun h => ?_, fun bi cands h => ?_⟩
        · refine ⟨k, hklen, hunk, ?_⟩
          rw [hck]
          exact List.isEmpty_iff.mp hemp
        · rw [hres] at h
          exact Option.noConfusion h
        · rw [hres] at h
          exact Option.noConfusion h
      · have hknil : get_candidates slot.length (pattern_for_slot st.grid slot)
            st.used_words cfg.words_by_length cfg.position_index ≠ [] := by
          intro hnil
          exact hemp (by rw [hnil]; rfl)
        rcases best with _ | ⟨bi0, bc0⟩
        · have hres : selectSlotGo cfg st
              ((k, slot) :: List.enumFrom (k + 1) rest) none =
              selectSlotGo cfg st (List.enumFrom (k + 1) rest)
                (some (k, get_candidates slot.length
                  (pattern_for_slot st.grid slot) st.used_words
                  cfg.words_by_length cfg.position_index)) := by
            simp only [selectSlotGo, hass, if_neg hemp]
          rw [hres]
          refine ih (k + 1) _ hdrop2 ?_
          simp only [bestInv] at hinv ⊢
          refine ⟨by omega, hklen, hunk, hck.symm, hknil, ?_, ?_⟩
          · intro j hj hu
            rcases Nat.lt_succ_iff_lt_or_eq.mp hj with hjk | rfl
            · exact absurd hu (hinv j hjk)
            · rw [hck]
          · intro j hj hu
            exact absurd hu (hinv j (by omega))
        · simp only [bestInv] at hinv
          obtain ⟨hbik, hbil, hbun, hbcands, hbne, hbmin, hbtie⟩ := hinv
          by_cases hlt : (get_candidates slot.length
              (pattern_for_slot st.grid slot) st.used_words
              cfg.words_by_length cfg.position_index).length < bc0.length
          · have hres : selectSlotGo cfg st
                ((k, slot) :: List.enumFrom (k + 1) rest) (some (bi0, bc0)) =
                selectSlotGo cfg st (List.enumFrom (k + 1) rest)
                  (some (k, get_candidates slot.length
                    (pattern_for_slot st.grid slot) st.used_words
                    cfg.words_by_length cfg.position_index)) := by
              simp only [selectSlotGo, hass, if_neg hemp, if_pos hlt]
            rw [hres]
            refine ih (k + 1) _ hdrop2 ?_
            simp only [bestInv]
            refine ⟨by omega, hklen, hunk, hck.symm, hknil, ?_, ?_⟩
            · intro j hj hu
              rcases Nat.lt_succ_iff_lt_or_eq.mp hj with hjk | rfl
              · have h3 := hbmin j hjk hu
                omega
              · rw [hck]
            · intro j hj hu
              have h3 := hbmin j (by omega) hu
              omega
          · have hres : selectSlotGo cfg st
                ((k, slot) :: List.enumFrom (k + 1) rest) (some (bi0, bc0)) =
                selectSlotGo cfg st (List.enumFrom (k + 1) rest)
                  (some (bi0, bc0)) := by
              simp only [selectSlotGo, hass, if_neg hemp, if_neg hlt]
            rw [hres]
            refine ih (k + 1) _ hdrop2 ?_
            simp only [bestInv]
            refine ⟨by omega, hbil, hbun, hbcands, hbne, ?_, hbtie⟩
            intro j hj hu
            rcases Nat.lt_succ_iff_lt_or_eq.mp hj with hjk | rfl
            · exact hbmin j hjk hu
            · push_neg at hlt
              rw [hck]
              omega
    · have hres : selectSlotGo cfg st
          ((k, slot) :: List.enumFrom (k + 1) rest) best =
          selectSlotGo cfg st (List.enumFrom (k + 1) rest) best := by
        simp only [selectSlotGo, hass]
      rw [hres]
      refine ih (k + 1) _ hdrop2 ?_
      have hak : ¬unassignedAt st k := by
        intro hu
        have h2 : (some w : Option Word) = none := by
          rw [← hass]
          exact hu
        exact Option.noConfusion h2
      rcases best with _ | ⟨bi0, bc0⟩
      · simp only [bestInv] at hinv ⊢
        intro j hj
        rcases Nat.lt_succ_iff_lt_or_eq.mp hj with hjk | rfl
        · exact hinv j hjk
        · exact hak
      · simp only [bestInv] at hinv ⊢
        obtain ⟨hbik, hbil, hbun, hbcands, hbne, hbmin, hbtie⟩ := hinv
        refine ⟨by omega, hbil, hbun, hbcands, hbne, ?_, hbtie⟩
        intro j hj hu
        rcases Nat.lt_succ_iff_lt_or_eq.mp hj with hjk | rfl
        · exact hbmin j hjk hu
        · exact absurd hu hak

theorem selectSlot_mrv (cfg : SolverCfg) (st : SolveState) :
    (selectSlot cfg st = none →
      ∃ j, j < cfg.slots.length ∧ unassignedAt st j ∧ candsOf cfg st j = []) ∧
    (selectSlot cfg st = some none →
      ∀ j, j < cfg.slots.length → ¬unassignedAt st j) ∧
    (∀ bi cands, selectSlot cfg st = some (some (bi, cands)) →
      bi < cfg.slots.length ∧ unassignedAt st bi ∧ cands = candsOf cfg st bi ∧
      cands ≠ [] ∧
      (∀ j, j < cfg.slots.length → unassignedAt st j →
        cands.length ≤ (candsOf cfg st j).length) ∧
      (∀ j, j < bi → unassignedAt st j →
        cands.length < (candsOf cfg st j).length)) := by
  have h := selectSlotGo_mrv cfg st cfg.slots 0 none (by rw [List.drop_zero])
    (by simp only [bestInv]; omega)
  exact h

theorem exists_unassigned_of_not_all (st : SolveState) (n : ℕ)
    (hlen : st.assigned.length = n)
    (hna : st.assigned.all (fun o => o.isSome) = false) :
    ∃ j, j < n ∧ unassignedAt st j := by
  rw [List.all_eq_false] at hna
  obtain ⟨o, ho, hno⟩ := hna
  obtain ⟨i, hi, hoi⟩ := List.mem_iff_getElem.mp ho
  refine ⟨i, by omega, ?_⟩
  rw [unassignedAt, List.getD_eq_getElem?_getD, List.getElem?_eq_getElem hi,
    hoi]
  rcases o with _ | a
  · rfl
  · simp at hno

/-- C6: at every recursive step with at least one unassigned slot, the
solver fails immediately when some unassigned slot's candidate set is
empty; otherwise it branches on the unassigned slot with the smallest
candidate set, ties broken in favour of the earliest slot; and the
candidate set of a slot is exactly the words of the slot's length matching
every known letter of its current pattern, excluding words already used.
(`hb` fixes the position index to the one `build_indexes` derives from the
length-indexed word lists, as `main` does.) -/
theorem recurse_mrv_selection (cfg : SolverCfg) (st : SolveState)
    (t fuel : ℕ)
    (hb : cfg.position_index = build_position_index cfg.words_by_length)
    (hlen : st.assigned.length = cfg.slots.length)
    (hna : st.assigned.all (fun o => o.isSome) = false) :
    ((∃ j, j < cfg.slots.length ∧ unassignedAt st j ∧ candsOf cfg st j = []) →
      recurse cfg (fuel + 1) (st, t) = (false, st, t)) ∧
    ((∀ j, j < cfg.slots.length → unassignedAt st j → candsOf cfg st j ≠ []) →
      ∃ bi, selectSlot cfg st = some (some (bi, candsOf cfg st bi)) ∧
        bi < cfg.slots.length ∧ unassignedAt st bi ∧
        (∀ j, j < cfg.slots.length → unassignedAt st j →
          (candsOf cfg st bi).length ≤ (candsOf cfg st j).length) ∧
        (∀ j, j < bi → unassignedAt st j →
          (candsOf cfg st bi).length < (candsOf cfg st j).length) ∧
        recurse cfg (fuel + 1) (st, t) =
          branchStep cfg (recurse cfg fuel) bi (candsOf cfg st bi) st t) ∧
    (∀ w i, w ∈ candsOf cfg st i ↔
      (w ∈ cfg.words_by_length (cfg.slots.getD i default).length ∧
        w ∉ st.used_words ∧
        ∀ pi, pi < (pattern_for_slot st.grid (cfg.slots.getD i default)).length →
          (pattern_for_slot st.grid (cfg.slots.getD i default)).getD pi '.' ≠ '.' →
          pi < w.data.length ∧ w.data.getD pi '?' =
            (pattern_for_slot st.grid (cfg.slots.getD i default)).getD pi '.')) := by
  obtain ⟨hmrv1, hmrv2, hmrv3⟩ := selectSlot_mrv cfg st
  have hnotall : ¬st.assigned.all (fun o => o.isSome) = true := by
    rw [hna]
    exact Bool.noConfusion
  refine ⟨?_, ?_, ?_⟩
  · rintro ⟨j, hj, hju, hjc⟩
    rcases hsel : selectSlot cfg st with _ | sel
    · simp only [recurse, if_neg hnotall, hsel]
    · rcases sel with _ | ⟨bi, cands⟩
      · exact absurd hju (hmrv2 hsel j hj)
      · obtain ⟨-, -, hcands, hne, hmin, -⟩ := hmrv3 bi cands hsel
        have h2 := hmin j hj hju
        rw [hjc] at h2
        simp only [List.length_nil, Nat.le_zero, List.length_eq_zero] at h2
        exact absurd h2 hne
  · intro hall
    rcases hsel : selectSlot cfg st with _ | sel
    · obtain ⟨j, hj, hju, hjc⟩ := hmrv1 hsel
      exact absurd hjc (hall j hj hju)
    · rcases sel with _ | ⟨bi, cands⟩
      · obtain ⟨j, hj, hju⟩ := exists_unassigned_of_not_all st cfg.slots.length
          hlen hna
        exact absurd hju (hmrv2 hsel j hj)
      · obtain ⟨hbil, hbun, hcands, hne, hmin, htie⟩ := hmrv3 bi cands hsel
        subst hcands
        refine ⟨bi, rfl, hbil, hbun, hmin, htie, ?_⟩
        simp only [recurse, if_neg hnotall, hsel]
  · intro w i
    unfold candsOf
    rw [hb]
    exact get_candidates_mem_iff cfg.words_by_length _ _ _ w

/-- Witness for C6 on the fresh 3x3 state of the concrete configuration. -/
theorem recurse_mrv_selection_witness :
    ((∃ j, j < exCfg.slots.length ∧ unassignedAt (initialState exCfg) j ∧
        candsOf exCfg (initialState exCfg) j = []) →
      recurse exCfg (6 + 1) (initialState exCfg, 7) =
        (false, initialState exCfg, 7)) ∧
    ((∀ j, j < exCfg.slots.length → unassignedAt (initialState exCfg) j →
        candsOf exCfg (initialState exCfg) j ≠ []) →
      ∃ bi, selectSlot exCfg (initialState exCfg) =
          some (some (bi, candsOf exCfg (initialState exCfg) bi)) ∧
        bi < exCfg.slots.length ∧ unassignedAt (initialState exCfg) bi ∧
        (∀ j, j < exCfg.slots.length → unassignedAt (initialState exCfg) j →
          (candsOf exCfg (initialState exCfg) bi).length ≤
            (candsOf exCfg (initialState exCfg) j).length) ∧
        (∀ j, j < bi → unassignedAt (initialState exCfg) j →
          (candsOf exCfg (initialState exCfg) bi).length <
            (candsOf exCfg (initialState exCfg) j).length) ∧
        recurse exCfg (6 + 1) (initialState exCfg, 7) =
          branchStep exCfg (recurse exCfg 6) bi
            (candsOf exCfg (initialState exCfg) bi) (initialState exCfg) 7) ∧
    (∀ w i, w ∈ candsOf exCfg (initialState exCfg) i ↔
      (w ∈ exCfg.words_by_length ((exCfg.slots.getD i default)).length ∧
        w ∉ (initialState exCfg).used_words ∧
        ∀ pi, pi < (pattern_for_slot (initialState exCfg).grid
            (exCfg.slots.getD i default)).length →
          (pattern_for_slot (initialState exCfg).grid
            (exCfg.slots.getD i default)).getD pi '.' ≠ '.' →
          pi < w.data.length ∧ w.data.getD pi '?' =
            (pattern_for_slot (initialState exCfg).grid
              (exCfg.slots.getD i default)).getD pi '.')) :=
  recurse_mrv_selection exCfg (initialState exCfg) 7 6 rfl (by decide)
    (by decide)

/-! ## C7: seed derivation and the relaxation ladder of `main`
(source lines 472-529) -/

theorem solve_template_length {cfg : SolverCfg} {seed : ℕ} {ws : List Word}
    (h : solve_template cfg seed = some ws) : ws.length = cfg.slots.length := by
  obtain ⟨hflag, hws⟩ := solve_template_some h
  obtain ⟨hall, -⟩ := recurse_success cfg _ _ _ hflag
  rw [hws, (filterMap_id_all_some _ hall).1, recurse_length]
  exact List.length_replicate ..

/-- Python truthiness of a `solve_template` result (`if not slot_words`):
`None` and the empty list are both falsy. -/
def py_falsy (r : Option (List Word)) : Bool :=
  match r with
  | none => true
  | some [] => true
  | some (_ :: _) => false

/-- `solve_template` with the two relaxation flags replaced. -/
def setFlags (cfg : SolverCfg) (e a : Bool) : SolverCfg :=
  ⟨cfg.slots, cfg.size, cfg.blocks, cfg.theme_id, cfg.words_by_length,
   cfg.word_set_by_length, cfg.position_index, cfg.pfx_index, cfg.entries,
   e, a⟩

/-- The per-attempt solving sequence of `main` (source lines 477-529):
derive `seed = 1013904223 + attempt * 7919`, then up to four
`solve_template` calls at that same seed, each tried only if the previous
result was falsy. -/
def attemptStep (cfg : SolverCfg) (attempt : ℕ) : Option (List Word) :=
  let seed := 1013904223 + attempt * 7919
  let r1 := solve_template (setFlags cfg true false) seed
  if py_falsy r1 then
    let r2 := solve_template (setFlags cfg false false) seed
    if py_falsy r2 then
      let r3 := solve_template (setFlags cfg true true) seed
      if py_falsy r3 then solve_template (setFlags cfg false true) seed
      else r3
    else r2
  else r1

/-- The ladder exactly as claim C7 states it: four rungs in the fixed
order (a) themed+no-hard, (b) untheme+no-hard, (c) themed+hard, (d) both
relaxed; the first rung that returns a word list wins; same seed at every
rung. -/
def ladderSpec (cfg : SolverCfg) (seed : ℕ) : Option (List Word) :=
  match solve_template (setFlags cfg true false) seed with
  | some ws => some ws
  | none =>
    match solve_template (setFlags cfg false false) seed with
    | some ws => some ws
    | none =>
      match solve_template (setFlags cfg true true) seed with
      | some ws => some ws
      | none => solve_template (setFlags cfg false true) seed

theorem py_falsy_eq_isNone {cfg : SolverCfg} (hne : cfg.slots ≠ [])
    (seed : ℕ) :
    py_falsy (solve_template cfg seed) = (solve_template cfg seed).isNone := by
  rcases hr : solve_template cfg seed with _ | ws
  · rfl
  · rcases ws with _ | ⟨w, ws2⟩
    · have h2 := solve_template_length hr
      rw [List.length_nil] at h2
      exact absurd (List.length_eq_zero.mp h2.symm) hne
    · rfl

/-- C7: for every attempt `k`, the generator derives
`seed = 1013904223 + k * 7919` and invokes the solver under the four-rung
relaxation ladder in the fixed order — themed range enforced and hard
words excluded, theme unenforced and hard words excluded, themed range
enforced and hard words allowed, both relaxed — using the result of the
first rung that succeeds, with the same seed at every rung.  (With at
least one slot, a successful solve is a nonempty list, so Python's
truthiness retry test is exactly "the previous rung failed".) -/
theorem attempt_ladder_first_success (cfg : SolverCfg) (k : ℕ)
    (hne : cfg.slots ≠ []) :
    attemptStep cfg k = ladderSpec cfg (1013904223 + k * 7919) := by
  have hne1 : (setFlags cfg true false).slots ≠ [] := hne
  have hne2 : (setFlags cfg false false).slots ≠ [] := hne
  have hne3 : (setFlags cfg true true).slots ≠ [] := hne
  unfold attemptStep ladderSpec
  rcases hr1 : solve_template (setFlags cfg true false)
      (1013904223 + k * 7919) with _ | ws1
  · rcases hr2 : solve_template (setFlags cfg false false)
        (1013904223 + k * 7919) with _ | ws2
    · rcases hr3 : solve_template (setFlags cfg true true)
          (1013904223 + k * 7919) with _ | ws3
      · simp [hr1, hr2, hr3, py_falsy]
      · rcases ws3 with _ | ⟨w3, ws3r⟩
        · have h2 := solve_template_length hr3
          rw [List.length_nil] at h2
          exact absurd (List.length_eq_zero.mp h2.symm) hne3
        · simp [hr1, hr2, hr3, py_falsy]
    · rcases ws2 with _ | ⟨w2, ws2r⟩
      · have h2 := solve_template_length hr2
        rw [List.length_nil] at h2
        exact absurd (List.length_eq_zero.mp h2.symm) hne2
      · simp [hr1, hr2, py_falsy]
  · rcases ws1 with _ | ⟨w1, ws1r⟩
    · have h2 := solve_template_length hr1
      rw [List.length_nil] at h2
      exact absurd (List.length_eq_zero.mp h2.symm) hne1
    · simp [hr1, py_falsy]

/-- Witness for C7 at the concrete configuration, attempt 1. -/
theorem attempt_ladder_first_success_witness :
    attemptStep exCfg 1 = ladderSpec exCfg (1013904223 + 1 * 7919) :=
  attempt_ladder_first_success exCfg 1 (by decide)

/-! ## `build_template_meta` (source lines 82-143) -/

def blocksOf (rows : List String) : List (List Bool) :=
  rows.map (fun row => row.data.map (fun ch => ch == '#'))

/-- `blocks[r][c]` (in-bounds in Python for rows at least `size` long). -/
def blocksAt (blocks : List (List Bool)) (r c : ℕ) : Bool :=
  (blocks.getD r []).getD c false

/-- The `while cc < size and not blocks[r][cc]` run collector (source
lines 103-107); fuel `size` always suffices. -/
def runAcross (blocks : List (List Bool)) (size r : ℕ) : ℕ → ℕ → List (ℕ × ℕ)
  | 0, _ => []
  | fuel + 1, cc =>
    if cc < size ∧ blocksAt blocks r cc = false then
      (r, cc) :: runAcross blocks size r fuel (cc + 1)
    else []

def runDown (blocks : List (List Bool)) (size c : ℕ) : ℕ → ℕ → List (ℕ × ℕ)
  | 0, _ => []
  | fuel + 1, rr =>
    if rr < size ∧ blocksAt blocks rr c = false then
      (rr, c) :: runDown blocks size c fuel (rr + 1)
    else []

/-- The row-major cell scan order of the two nested loops (source lines
92-93). -/
def cellList (size : ℕ) : List (ℕ × ℕ) :=
  (List.range size).bind (fun r => (List.range size).map (fun c => (r, c)))

def starts_across (blocks : List (List Bool)) (r c : ℕ) : Bool :=
  decide (c = 0) || blocksAt blocks r (c - 1)

def starts_down (blocks : List (List Bool)) (r c : ℕ) : Bool :=
  decide (r = 0) || blocksAt blocks (r - 1) c

/-- One iteration of the scan (source lines 94-136): an open cell that
starts an across or a down run (of any length) receives the next number;
slots are appended only for runs of length at least 3. -/
def scanCell (blocks : List (List Bool)) (size : ℕ) (acc : ℕ × List Slot)
    (rc : ℕ × ℕ) : ℕ × List Slot :=
  if blocksAt blocks rc.1 rc.2 then acc
  else
    let sa := starts_across blocks rc.1 rc.2
    let sd := starts_down blocks rc.1 rc.2
    if sa || sd then
      let num := acc.1
      let acells := runAcross blocks size rc.1 size rc.2
      let dcells := runDown blocks size rc.2 size rc.1
      let slots1 :=
        if sa && decide (3 ≤ acells.length) then
          acc.2 ++ [⟨"across", rc.1, rc.2, acells.length, acells, num⟩]
        else acc.2
      let slots2 :=
        if sd && decide (3 ≤ dcells.length) then
          slots1 ++ [⟨"down", rc.1, rc.2, dcells.length, dcells, num⟩]
        else slots1
      (num + 1, slots2)
    else acc

def build_template_meta (template_id : String) (rows : List String) :
    TemplateMeta :=
  let size := rows.length
  let blocks := blocksOf rows
  let scan := (cellList size).foldl (scanCell blocks size) (1, [])
  ⟨template_id, rows, blocks, scan.2⟩

/-- The scan as claim C8 states it: a cell is numbered iff it begins an
across or a down SLOT, i.e. a run of length at least 3. -/
def scanCellClaim (blocks : List (List Bool)) (size : ℕ) (acc : ℕ × List Slot)
    (rc : ℕ × ℕ) : ℕ × List Slot :=
  if blocksAt blocks rc.1 rc.2 then acc
  else
    let sa := starts_across blocks rc.1 rc.2
    let sd := starts_down blocks rc.1 rc.2
    let acells := runAcross blocks size rc.1 size rc.2
    let dcells := runDown blocks size rc.2 size rc.1
    if (sa && decide (3 ≤ acells.length)) || (sd && decide (3 ≤ dcells.length)) then
      let num := acc.1
      let slots1 :=
        if sa && decide (3 ≤ acells.length) then
          acc.2 ++ [⟨"across", rc.1, rc.2, acells.length, acells, num⟩]
        else acc.2
      let slots2 :=
        if sd && decide (3 ≤ dcells.length) then
          slots1 ++ [⟨"down", rc.1, rc.2, dcells.length, dcells, num⟩]
        else slots1
      (num + 1, slots2)
    else acc

def build_template_meta_claim (template_id : String) (rows : List String) :
    TemplateMeta :=
  let size := rows.length
  let blocks := blocksOf rows
  let scan := (cellList size).foldl (scanCellClaim blocks size) (1, [])
  ⟨template_id, rows, blocks, scan.2⟩

/-- A cell receives a number in the code's scan iff it is open and begins
an across or a down run (of any length). -/
def cellNumbered (blocks : List (List Bool)) (rc : ℕ × ℕ) : Bool :=
  !blocksAt blocks rc.1 rc.2 &&
    (starts_across blocks rc.1 rc.2 || starts_down blocks rc.1 rc.2)

/-- The slots appended at a numbered cell. -/
def emittedSlots (blocks : List (List Bool)) (size : ℕ) (rc : ℕ × ℕ)
    (num : ℕ) : List Slot :=
  (if starts_across blocks rc.1 rc.2 &&
      decide (3 ≤ (runAcross blocks size rc.1 size rc.2).length) then
    [⟨"across", rc.1, rc.2, (runAcross blocks size rc.1 size rc.2).length,
      runAcross blocks size rc.1 size rc.2, num⟩]
  else []) ++
  (if starts_down blocks rc.1 rc.2 &&
      decide (3 ≤ (runDown blocks size rc.2 size rc.1).length) then
    [⟨"down", rc.1, rc.2, (runDown blocks size rc.2 size rc.1).length,
      runDown blocks size rc.2 size rc.1, num⟩]
  else []) ++ []

/-- The slot list produced by scanning a cell sequence with the next free
number. -/
def scanSlots (blocks : List (List Bool)) (size : ℕ) :
    List (ℕ × ℕ) → ℕ → List Slot
  | [], _ => []
  | rc :: rest, n =>
    if cellNumbered blocks rc then
      emittedSlots blocks size rc n ++ scanSlots blocks size rest (n + 1)
    else scanSlots blocks size rest n

theorem scanCell_eq (blocks : List (List Bool)) (size : ℕ)
    (acc : ℕ × List Slot) (rc : ℕ × ℕ) :
    scanCell blocks size acc rc =
      if cellNumbered blocks rc then
        (acc.1 + 1, acc.2 ++ emittedSlots blocks size rc acc.1)
      else acc := by
  by_cases hb : blocksAt blocks rc.1 rc.2 = true
  · simp [scanCell, cellNumbered, hb]
  · rw [Bool.not_eq_true] at hb
    by_cases hsasd : (starts_across blocks rc.1 rc.2 ||
        starts_down blocks rc.1 rc.2) = true
    · have hnum : cellNumbered blocks rc = true := by
        simp [cellNumbered, hb, hsasd]
      rw [if_pos hnum]
      simp only [scanCell, hb, Bool.false_eq_true, if_false, hsasd, if_true,
        emittedSlots]
      by_cases ha : (starts_across blocks rc.1 rc.2 &&
          decide (3 ≤ (runAcross blocks size rc.1 size rc.2).length)) = true
      · by_cases hd : (starts_down blocks rc.1 rc.2 &&
            decide (3 ≤ (runDown blocks size rc.2 size rc.1).length)) = true
        · simp [ha, hd, List.append_assoc]
        · simp [ha, hd]
      · by_cases hd : (starts_down blocks rc.1 rc.2 &&
            decide (3 ≤ (runDown blocks size rc.2 size rc.1).length)) = true
        · simp [ha, hd]
        · simp [ha, hd]
    · have hnum : cellNumbered blocks rc = false := by
        simp only [cellNumbered, hb, Bool.not_false, Bool.true_and]
        exact Bool.not_eq_true _ ▸ hsasd
      rw [hnum, if_neg (by exact Bool.noConfusion)]
      simp only [scanCell, hb, Bool.false_eq_true, if_false, hsasd]

theorem scan_foldl_spec (blocks : List (List Bool)) (size : ℕ) :
    ∀ (L : List (ℕ × ℕ)) (n : ℕ) (ss : List Slot),
      L.foldl (scanCell blocks size) (n, ss) =
        (n + L.countP (cellNumbered blocks),
          ss ++ scanSlots blocks size L n) := by
  intro L
  induction L with
  | nil => intro n ss; simp [scanSlots]
  | cons rc rest ih =>
    intro n ss
    rw [List.foldl_cons, scanCell_eq]
    by_cases hnum : cellNumbered blocks rc = true
    · rw [if_pos hnum, ih]
      rw [scanSlots, if_pos hnum, List.countP_cons_of_pos _ _ hnum,
        Prod.mk.injEq]
      exact ⟨by omega, by rw [List.append_assoc]⟩
    · rw [if_neg hnum, ih]
      rw [scanSlots, if_neg hnum, List.countP_cons_of_neg _ _ hnum]

theorem scanSlots_number (blocks : List (List Bool)) (size : ℕ) :
    ∀ (L : List (ℕ × ℕ)) (n : ℕ) (s : Slot), s ∈ scanSlots blocks size L n →
      ∃ pre rc post, L = pre ++ rc :: post ∧ s.row = rc.1 ∧ s.col = rc.2 ∧
        cellNumbered blocks rc = true ∧
        s.number = n + pre.countP (cellNumbered blocks) ∧
        3 ≤ s.cells.length ∧ s.length = s.cells.length ∧
        ((s.direction = "across" ∧ starts_across blocks rc.1 rc.2 = true ∧
          s.cells = runAcross blocks size rc.1 size rc.2) ∨
         (s.direction = "down" ∧ starts_down blocks rc.1 rc.2 = true ∧
          s.cells = runDown blocks size rc.2 size rc.1)) := by
  intro L
  induction L with
  | nil => intro n s hs; exact absurd hs (List.not_mem_nil s)
  | cons rc0 rest ih =>
    intro n s hs
    rw [scanSlots] at hs
    by_cases hnum : cellNumbered blocks rc0 = true
    · rw [if_pos hnum] at hs
      rcases List.mem_append.mp hs with hem | hrec
      · refine ⟨[], rc0, rest, rfl, ?_⟩
        rw [emittedSlots, List.append_nil] at hem
        rcases List.mem_append.mp hem with ha | hd
        · by_cases hca : (starts_across blocks rc0.1 rc0.2 &&
              decide (3 ≤ (runAcross blocks size rc0.1 size rc0.2).length)) = true
          · rw [if_pos hca] at ha
            rcases List.mem_singleton.mp ha with rfl
            rw [Bool.and_eq_true, decide_eq_true_eq] at hca
            exact ⟨rfl, rfl, hnum, by simp, hca.2, rfl,
              Or.inl ⟨rfl, hca.1, rfl⟩⟩
          · rw [if_neg hca] at ha
            exact absurd ha (List.not_mem_nil s)
        · by_cases hcd : (starts_down blocks rc0.1 rc0.2 &&
              decide (3 ≤ (runDown blocks size rc0.2 size rc0.1).length)) = true
          · rw [if_pos hcd] at hd
            rcases List.mem_singleton.mp hd with rfl
            rw [Bool.and_eq_true, decide_eq_true_eq] at hcd
            exact ⟨rfl, rfl, hnum, by simp, hcd.2, rfl,
              Or.inr ⟨rfl, hcd.1, rfl⟩⟩
          · rw [if_neg hcd] at hd
            exact absurd hd (List.not_mem_nil s)
      · obtain ⟨pre, rc, post, hL, hrow, hcol, hrcnum, hn, h3, hl, hdir⟩ :=
          ih (n + 1) s hrec
        refine ⟨rc0 :: pre, rc, post, by rw [hL, List.cons_append], hrow, hcol, hrcnum, ?_,
          h3, hl, hdir⟩
        rw [List.countP_cons_of_pos _ _ hnum]
        omega
    · rw [if_neg hnum] at hs
      obtain ⟨pre, rc, post, hL, hrow, hcol, hrcnum, hn, h3, hl, hdir⟩ :=
        ih n s hs
      refine ⟨rc0 :: pre, rc, post, by rw [hL, List.cons_append], hrow, hcol, hrcnum, ?_,
        h3, hl, hdir⟩
      rw [List.countP_cons_of_neg _ _ hnum]
      exact hn

theorem scanSlots_complete_across (blocks : List (List Bool)) (size : ℕ) :
    ∀ (pre : List (ℕ × ℕ)) (L : List (ℕ × ℕ)) (n : ℕ) (rc : ℕ × ℕ)
      (post : List (ℕ × ℕ)),
      L = pre ++ rc :: post →
      cellNumbered blocks rc = true →
      starts_across blocks rc.1 rc.2 = true →
      3 ≤ (runAcross blocks size rc.1 size rc.2).length →
      (⟨"across", rc.1, rc.2, (runAcross blocks size rc.1 size rc.2).length,
        runAcross blocks size rc.1 size rc.2,
        n + pre.countP (cellNumbered blocks)⟩ : Slot) ∈
        scanSlots blocks size L n := by
  intro pre
  induction pre with
  | nil =>
    intro L n rc post hL hnum hsa h3
    subst hL
    rw [List.nil_append, scanSlots, if_pos hnum]
    refine List.mem_append.mpr (Or.inl ?_)
    rw [emittedSlots, List.append_nil]
    refine List.mem_append.mpr (Or.inl ?_)
    rw [if_pos (by rw [Bool.and_eq_true, decide_eq_true_eq]; exact ⟨hsa, h3⟩)]
    simp
  | cons p0 pre2 ih =>
    intro L n rc post hL hnum hsa h3
    subst hL
    rw [List.cons_append, scanSlots]
    by_cases hp0 : cellNumbered blocks p0 = true
    · rw [if_pos hp0]
      refine List.mem_append.mpr (Or.inr ?_)
      have heq : n + (p0 :: pre2).countP (cellNumbered blocks) =
          (n + 1) + pre2.countP (cellNumbered blocks) := by
        rw [List.countP_cons_of_pos _ _ hp0]
        omega
      rw [heq]
      exact ih _ (n + 1) rc post rfl hnum hsa h3
    · rw [if_neg hp0]
      have heq : n + (p0 :: pre2).countP (cellNumbered blocks) =
          n + pre2.countP (cellNumbered blocks) := by
        rw [List.countP_cons_of_neg _ _ hp0]
      rw [heq]
      exact ih _ n rc post rfl hnum hsa h3

theorem scanSlots_complete_down (blocks : List (List Bool)) (size : ℕ) :
    ∀ (pre : List (ℕ × ℕ)) (L : List (ℕ × ℕ)) (n : ℕ) (rc : ℕ × ℕ)
      (post : List (ℕ × ℕ)),
      L = pre ++ rc :: post →
      cellNumbered blocks rc = true →
      starts_down blocks rc.1 rc.2 = true →
      3 ≤ (runDown blocks size rc.2 size rc.1).length →
      (⟨"down", rc.1, rc.2, (runDown blocks size rc.2 size rc.1).length,
        runDown blocks size rc.2 size rc.1,
        n + pre.countP (cellNumbered blocks)⟩ : Slot) ∈
        scanSlots blocks size L n := by
  intro pre
  induction pre with
  | nil =>
    intro L n rc post hL hnum hsd h3
    subst hL
    rw [List.nil_append, scanSlots, if_pos hnum]
    refine List.mem_append.mpr (Or.inl ?_)
    rw [emittedSlots, List.append_nil]
    refine List.mem_append.mpr (Or.inr ?_)
    rw [if_pos (by rw [Bool.and_eq_true, decide_eq_true_eq]; exact ⟨hsd, h3⟩)]
    simp
  | cons p0 pre2 ih =>
    intro L n rc post hL hnum hsd h3
    subst hL
    rw [List.cons_append, scanSlots]
    by_cases hp0 : cellNumbered blocks p0 = true
    · rw [if_pos hp0]
      refine List.mem_append.mpr (Or.inr ?_)
      have heq : n + (p0 :: pre2).countP (cellNumbered blocks) =
          (n + 1) + pre2.countP (cellNumbered blocks) := by
        rw [List.countP_cons_of_pos _ _ hp0]
        omega
      rw [heq]
      exact ih _ (n + 1) rc post rfl hnum hsd h3
    · rw [if_neg hp0]
      have heq : n + (p0 :: pre2).countP (cellNumbered blocks) =
          n + pre2.countP (cellNumbered blocks) := by
        rw [List.countP_cons_of_neg _ _ hp0]
      rw [heq]
      exact ih _ n rc post rfl hnum hsd h3

/-- C8 counterexample: on the template `[".#.", "##.", "..."]` the code
numbers the short-run starts `(0,0)`, `(1,2)`, `(2,1)` as well, so its
slots carry numbers `[2, 4]`, while the claim's numbering (only length-3
runs numbered) yields `[1, 2]`. -/
theorem numbering_counts_short_run_starts :
    (build_template_meta "t" [".#.", "##.", "..."]).slots.map
      (fun s => s.number) = [2, 4] ∧
    (build_template_meta_claim "t" [".#.", "##.", "..."]).slots.map
      (fun s => s.number) = [1, 2] ∧
    build_template_meta "t" [".#.", "##.", "..."] ≠
      build_template_meta_claim "t" [".#.", "##.", "..."] := by
  exact ⟨by decide, by decide, by decide⟩

/-- C8 amended: scanning cells row-major, a cell receives the next unused
sequential number iff it is open and begins an across run (col=0 or
blocked predecessor) or a down run (row=0 or blocked predecessor) of ANY
length; slots are created exactly for runs of length ≥ 3 and are labeled
with their start cell's number (so the same number may label both an
across and a down slot starting at that cell). -/
theorem build_template_meta_numbering (template_id : String)
    (rows : List String) :
    ((build_template_meta template_id rows).slots =
      scanSlots (blocksOf rows) rows.length (cellList rows.length) 1) ∧
    (∀ s ∈ (build_template_meta template_id rows).slots,
      ∃ pre rc post, cellList rows.length = pre ++ rc :: post ∧
        s.row = rc.1 ∧ s.col = rc.2 ∧
        cellNumbered (blocksOf rows) rc = true ∧
        s.number = 1 + pre.countP (cellNumbered (blocksOf rows)) ∧
        3 ≤ s.cells.length ∧ s.length = s.cells.length ∧
        ((s.direction = "across" ∧
          starts_across (blocksOf rows) rc.1 rc.2 = true ∧
          s.cells = runAcross (blocksOf rows) rows.length rc.1 rows.length rc.2) ∨
         (s.direction = "down" ∧
          starts_down (blocksOf rows) rc.1 rc.2 = true ∧
          s.cells = runDown (blocksOf rows) rows.length rc.2 rows.length rc.1))) ∧
    (∀ pre rc post, cellList rows.length = pre ++ rc :: post →
      cellNumbered (blocksOf rows) rc = true →
      (starts_across (blocksOf rows) rc.1 rc.2 = true →
        3 ≤ (runAcross (blocksOf rows) rows.length rc.1 rows.length rc.2).length →
        (⟨"across", rc.1, rc.2,
          (runAcross (blocksOf rows) rows.length rc.1 rows.length rc.2).length,
          runAcross (blocksOf rows) rows.length rc.1 rows.length rc.2,
          1 + pre.countP (cellNumbered (blocksOf rows))⟩ : Slot) ∈
          (build_template_meta template_id rows).slots) ∧
      (starts_down (blocksOf rows) rc.1 rc.2 = true →
        3 ≤ (runDown (blocksOf rows) rows.length rc.2 rows.length rc.1).length →
        (⟨"down", rc.1, rc.2,
          (runDown (blocksOf rows) rows.length rc.2 rows.length rc.1).length,
          runDown (blocksOf rows) rows.length rc.2 rows.length rc.1,
          1 + pre.countP (cellNumbered (blocksOf rows))⟩ : Slot) ∈
          (build_template_meta template_id rows).slots)) := by
  have hbridge : (build_template_meta template_id rows).slots =
      scanSlots (blocksOf rows) rows.length (cellList rows.length) 1 := by
    show ((cellList rows.length).foldl
      (scanCell (blocksOf rows) rows.length) (1, [])).2 = _
    rw [scan_foldl_spec]
    rw [List.nil_append]
  refine ⟨hbridge, ?_, ?_⟩
  · intro s hs
    rw [hbridge] at hs
    obtain ⟨pre, rc, post, hL, hrest⟩ :=
      scanSlots_number (blocksOf rows) rows.length _ 1 s hs
    exact ⟨pre, rc, post, hL, hrest⟩
  · intro pre rc post hL hnum
    constructor
    · intro hsa h3
      rw [hbridge]
      exact scanSlots_complete_across (blocksOf rows) rows.length pre _ 1 rc
        post hL hnum hsa h3
    · intro hsd h3
      rw [hbridge]
      exact scanSlots_complete_down (blocksOf rows) rows.length pre _ 1 rc
        post hL hnum hsd h3

/-- Witness for the amended C8 theorem: the down slot of the concrete
template starts at cell `(0,2)` and carries number 2 because exactly one
numbered cell, `(0,0)` (a short-run start), precedes it. -/
theorem build_template_meta_numbering_witness :
    ∃ pre rc post, cellList (3 : ℕ) = pre ++ rc :: post ∧
      (0 : ℕ) = rc.1 ∧ (2 : ℕ) = rc.2 ∧
      cellNumbered (blocksOf [".#.", "##.", "..."]) rc = true ∧
      (2 : ℕ) = 1 + pre.countP (cellNumbered (blocksOf [".#.", "##.", "..."])) ∧
      3 ≤ ([((0 : ℕ), (2 : ℕ)), (1, 2), (2, 2)] : List (ℕ × ℕ)).length ∧
      (3 : ℕ) = ([((0 : ℕ), (2 : ℕ)), (1, 2), (2, 2)] : List (ℕ × ℕ)).length ∧
      ((("down" : String) = "across" ∧
        starts_across (blocksOf [".#.", "##.", "..."]) rc.1 rc.2 = true ∧
        ([((0 : ℕ), (2 : ℕ)), (1, 2), (2, 2)] : List (ℕ × ℕ)) =
          runAcross (blocksOf [".#.", "##.", "..."]) 3 rc.1 3 rc.2) ∨
       (("down" : String) = "down" ∧
        starts_down (blocksOf [".#.", "##.", "..."]) rc.1 rc.2 = true ∧
        ([((0 : ℕ), (2 : ℕ)), (1, 2), (2, 2)] : List (ℕ × ℕ)) =
          runDown (blocksOf [".#.", "##.", "..."]) 3 rc.2 3 rc.1)) :=
  (build_template_meta_numbering "t" [".#.", "##.", "..."]).2.1
    ⟨"down", 0, 2, 3, [(0, 2), (1, 2), (2, 2)], 2⟩ (by decide)

/-- Rows with every non-`'#'` character replaced by `'.'` (the claim's
two-character alphabet). -/
def normalizeRows (rows : List String) : List String :=
  rows.map (fun r =>
    String.mk (r.data.map (fun c => if c = '#' then '#' else '.')))

theorem normalizeRows_length (rows : List String) :
    (normalizeRows rows).length = rows.length :=
  List.length_map _ _

theorem blocksOf_normalizeRows (rows : List String) :
    blocksOf (normalizeRows rows) = blocksOf rows := by
  rw [blocksOf, blocksOf, normalizeRows, List.map_map]
  refine List.map_congr_left ?_
  intro r _
  show (r.data.map (fun c => if c = '#' then '#' else '.')).map
      (fun ch => ch == '#') = r.data.map (fun ch => ch == '#')
  rw [List.map_map]
  refine List.map_congr_left ?_
  intro c _
  show ((if c = '#' then '#' else '.') == '#') = (c == '#')
  by_cases hc : c = '#'
  · rw [if_pos hc, hc]
  · rw [if_neg hc, beq_eq_false_iff_ne.mpr hc]
    decide

/-! ### Python list-indexing semantics for the scan (C9)

`blocks[r][c]` raises `IndexError` when the index is out of range. The
`Opt` variants below return `none` exactly when such an access occurs,
mirroring the evaluation order of source lines 94-135: the short-circuit
`or` in the start tests, and each run walked only under its start flag. -/

def blocksAtOpt (blocks : List (List Bool)) (r c : ℕ) : Option Bool :=
  match blocks[r]? with
  | none => none
  | some row => row[c]?

def startsAcrossOpt (blocks : List (List Bool)) (r c : ℕ) : Option Bool :=
  if c = 0 then some true else blocksAtOpt blocks r (c - 1)

def startsDownOpt (blocks : List (List Bool)) (r c : ℕ) : Option Bool :=
  if r = 0 then some true else blocksAtOpt blocks (r - 1) c

def runAcrossOpt (blocks : List (List Bool)) (size r : ℕ) :
    ℕ → ℕ → Option (List (ℕ × ℕ))
  | 0, _ => some []
  | fuel + 1, cc =>
    if cc < size then
      match blocksAtOpt blocks r cc with
      | none => none
      | some true => some []
      | some false =>
        match runAcrossOpt blocks size r fuel (cc + 1) with
        | none => none
        | some rest => some ((r, cc) :: rest)
    else some []

def runDownOpt (blocks : List (List Bool)) (size c : ℕ) :
    ℕ → ℕ → Option (List (ℕ × ℕ))
  | 0, _ => some []
  | fuel + 1, rr =>
    if rr < size then
      match blocksAtOpt blocks rr c with
      | none => none
      | some true => some []
      | some false =>
        match runDownOpt blocks size c fuel (rr + 1) with
        | none => none
        | some rest => some ((rr, c) :: rest)
    else some []

def scanCellOpt (blocks : List (List Bool)) (size : ℕ) (acc : ℕ × List Slot)
    (rc : ℕ × ℕ) : Option (ℕ × List Slot) :=
  match blocksAtOpt blocks rc.1 rc.2 with
  | none => none
  | some true => some acc
  | some false =>
    match startsAcrossOpt blocks rc.1 rc.2 with
    | none => none
    | some sa =>
      match startsDownOpt blocks rc.1 rc.2 with
      | none => none
      | some sd =>
        if sa || sd then
          let num := acc.1
          let step1 : Option (List Slot) :=
            if sa then
              match runAcrossOpt blocks size rc.1 size rc.2 with
              | none => none
              | some acells =>
                some (if sa && decide (3 ≤ acells.length) then
                  acc.2 ++ [⟨"across", rc.1, rc.2, acells.length, acells,
                    num⟩]
                else acc.2)
            else some acc.2
          match step1 with
          | none => none
          | some slots1 =>
            if sd then
              match runDownOpt blocks size rc.2 size rc.1 with
              | none => none
              | some dcells =>
                some (num + 1,
                  if sd && decide (3 ≤ dcells.length) then
                    slots1 ++ [⟨"down", rc.1, rc.2, dcells.length, dcells,
                      num⟩]
                  else slots1)
            else some (num + 1, slots1)
        else some acc

def scanFoldOpt (blocks : List (List Bool)) (size : ℕ) :
    List (ℕ × ℕ) → ℕ × List Slot → Option (ℕ × List Slot)
  | [], acc => some acc
  | rc :: rest, acc =>
    match scanCellOpt blocks size acc rc with
    | none => none
    | some acc2 => scanFoldOpt blocks size rest acc2

/-- `build_template_meta` under Python's partial list indexing: `none`
means the source raises `IndexError` during the scan. -/
def build_template_meta_opt (template_id : String) (rows : List String) :
    Option TemplateMeta :=
  match scanFoldOpt (blocksOf rows) rows.length (cellList rows.length)
      (1, []) with
  | none => none
  | some scan => some ⟨template_id, rows, blocksOf rows, scan.2⟩

theorem runAcrossOpt_eq (blocks : List (List Bool)) (size r : ℕ)
    (hB : ∀ r2 c2, r2 < size → c2 < size →
      blocksAtOpt blocks r2 c2 = some (blocksAt blocks r2 c2))
    (hr : r < size) :
    ∀ (fuel cc : ℕ), runAcrossOpt blocks size r fuel cc =
      some (runAcross blocks size r fuel cc)
  | 0, _ => rfl
  | fuel + 1, cc => by
    rw [runAcrossOpt, runAcross]
    by_cases hcc : cc < size
    · rw [if_pos hcc, hB r cc hr hcc]
      cases hblk : blocksAt blocks r cc
      · rw [runAcrossOpt_eq blocks size r hB hr fuel (cc + 1),
          if_pos (And.intro hcc rfl)]
      · rw [if_neg (fun hco => Bool.noConfusion hco.2)]
    · rw [if_neg hcc, if_neg (fun hco => hcc hco.1)]

theorem runDownOpt_eq (blocks : List (List Bool)) (size c : ℕ)
    (hB : ∀ r2 c2, r2 < size → c2 < size →
      blocksAtOpt blocks r2 c2 = some (blocksAt blocks r2 c2))
    (hc : c < size) :
    ∀ (fuel rr : ℕ), runDownOpt blocks size c fuel rr =
      some (runDown blocks size c fuel rr)
  | 0, _ => rfl
  | fuel + 1, rr => by
    rw [runDownOpt, runDown]
    by_cases hrr : rr < size
    · rw [if_pos hrr, hB rr c hrr hc]
      cases hblk : blocksAt blocks rr c
      · rw [runDownOpt_eq blocks size c hB hc fuel (rr + 1),
          if_pos (And.intro hrr rfl)]
      · rw [if_neg (fun hco => Bool.noConfusion hco.2)]
    · rw [if_neg hrr, if_neg (fun hco => hrr hco.1)]

theorem startsAcrossOpt_eq (blocks : List (List Bool)) (size r c : ℕ)
    (hB : ∀ r2 c2, r2 < size → c2 < size →
      blocksAtOpt blocks r2 c2 = some (blocksAt blocks r2 c2))
    (hr : r < size) (hc : c < size) :
    startsAcrossOpt blocks r c = some (starts_across blocks r c) := by
  rw [startsAcrossOpt, starts_across]
  by_cases h0 : c = 0
  · rw [if_pos h0, h0]
    rfl
  · rw [if_neg h0, hB r (c - 1) hr (Nat.lt_of_le_of_lt (Nat.sub_le c 1) hc),
      decide_eq_false h0]
    rfl

theorem startsDownOpt_eq (blocks : List (List Bool)) (size r c : ℕ)
    (hB : ∀ r2 c2, r2 < size → c2 < size →
      blocksAtOpt blocks r2 c2 = some (blocksAt blocks r2 c2))
    (hr : r < size) (hc : c < size) :
    startsDownOpt blocks r c = some (starts_down blocks r c) := by
  rw [startsDownOpt, starts_down]
  by_cases h0 : r = 0
  · rw [if_pos h0, h0]
    rfl
  · rw [if_neg h0, hB (r - 1) c (Nat.lt_of_le_of_lt (Nat.sub_le r 1) hr) hc,
      decide_eq_false h0]
    rfl

theorem scanCellOpt_eq (blocks : List (List Bool)) (size : ℕ)
    (hB : ∀ r2 c2, r2 < size → c2 < size →
      blocksAtOpt blocks r2 c2 = some (blocksAt blocks r2 c2))
    (rc : ℕ × ℕ) (hr : rc.1 < size) (hc : rc.2 < size)
    (acc : ℕ × List Slot) :
    scanCellOpt blocks size acc rc = some (scanCell blocks size acc rc) := by
  rw [scanCellOpt, scanCell, hB rc.1 rc.2 hr hc]
  cases hblk : blocksAt blocks rc.1 rc.2
  · rw [startsAcrossOpt_eq blocks size rc.1 rc.2 hB hr hc,
      startsDownOpt_eq blocks size rc.1 rc.2 hB hr hc]
    cases hsa : starts_across blocks rc.1 rc.2 <;>
      cases hsd : starts_down blocks rc.1 rc.2
    · rfl
    · rw [runDownOpt_eq blocks size rc.2 hB hc size rc.1]
      rfl
    · rw [runAcrossOpt_eq blocks size rc.1 hB hr size rc.2]
      rfl
    · rw [runAcrossOpt_eq blocks size rc.1 hB hr size rc.2,
        runDownOpt_eq blocks size rc.2 hB hc size rc.1]
      rfl
  · rfl

theorem scanFoldOpt_eq (blocks : List (List Bool)) (size : ℕ)
    (hB : ∀ r2 c2, r2 < size → c2 < size →
      blocksAtOpt blocks r2 c2 = some (blocksAt blocks r2 c2)) :
    ∀ (L : List (ℕ × ℕ)), (∀ rc ∈ L, rc.1 < size ∧ rc.2 < size) →
      ∀ (acc : ℕ × List Slot), scanFoldOpt blocks size L acc =
        some (L.foldl (scanCell blocks size) acc)
  | [], _, _ => rfl
  | rc :: rest, hL, acc => by
    rw [scanFoldOpt, List.foldl_cons,
      scanCellOpt_eq blocks size hB rc (hL rc (List.mem_cons_self rc rest)).1
        (hL rc (List.mem_cons_self rc rest)).2 acc]
    exact scanFoldOpt_eq blocks size hB rest
      (fun x hx => hL x (List.mem_cons_of_mem rc hx))
      (scanCell blocks size acc rc)

theorem cellList_bounds (size : ℕ) :
    ∀ rc ∈ cellList size, rc.1 < size ∧ rc.2 < size := by
  intro rc h
  rw [cellList, List.mem_bind] at h
  obtain ⟨r, hr, hc⟩ := h
  rw [List.mem_map] at hc
  obtain ⟨c, hc2, rfl⟩ := hc
  exact ⟨List.mem_range.mp hr, List.mem_range.mp hc2⟩

theorem blocksAtOpt_all (rows : List String)
    (hlong : ∀ row ∈ rows, rows.length ≤ row.data.length) :
    ∀ r c, r < rows.length → c < rows.length →
      blocksAtOpt (blocksOf rows) r c =
        some (blocksAt (blocksOf rows) r c) := by
  intro r c hr hc
  have h1 : (blocksOf rows)[r]? =
      some ((rows[r]).data.map (fun ch => ch == '#')) := by
    rw [blocksOf, List.getElem?_map, List.getElem?_eq_getElem hr]
    rfl
  have hcb : c < ((rows[r]).data.map (fun ch => ch == '#')).length := by
    rw [List.length_map]
    exact Nat.lt_of_lt_of_le hc (hlong _ (List.getElem_mem hr))
  have h2 : blocksAt (blocksOf rows) r c =
      ((rows[r]).data.map (fun ch => ch == '#')).get ⟨c, hcb⟩ := by
    rw [blocksAt, List.getD_eq_getElem?_getD (blocksOf rows) r [], h1,
      Option.getD_some, List.getD_eq_getElem?_getD,
      List.getElem?_eq_getElem hcb, Option.getD_some]
    rfl
  rw [blocksAtOpt, h1]
  show ((rows[r]).data.map (fun ch => ch == '#'))[c]? = _
  rw [List.getElem?_eq_getElem hcb, h2]
  rfl

theorem build_template_meta_opt_eq (template_id : String)
    (rows : List String)
    (hlong : ∀ row ∈ rows, rows.length ≤ row.data.length) :
    build_template_meta_opt template_id rows =
      some (build_template_meta template_id rows) := by
  rw [build_template_meta_opt,
    scanFoldOpt_eq (blocksOf rows) rows.length (blocksAtOpt_all rows hlong)
      (cellList rows.length) (cellList_bounds rows.length) (1, [])]
  rfl

theorem build_template_meta_normalize (template_id : String)
    (rows : List String) :
    build_template_meta template_id (normalizeRows rows) =
      ⟨template_id, normalizeRows rows,
        (build_template_meta template_id rows).blocks,
        (build_template_meta template_id rows).slots⟩ := by
  show (⟨template_id, normalizeRows rows, blocksOf (normalizeRows rows),
      ((cellList (normalizeRows rows).length).foldl
        (scanCell (blocksOf (normalizeRows rows))
          (normalizeRows rows).length) (1, [])).2⟩ : TemplateMeta) = _
  rw [blocksOf_normalizeRows, normalizeRows_length]
  rfl

theorem normalizeRows_long (rows : List String)
    (hlong : ∀ row ∈ rows, rows.length ≤ row.data.length) :
    ∀ row ∈ normalizeRows rows,
      (normalizeRows rows).length ≤ row.data.length := by
  intro row hrow
  rw [normalizeRows, List.mem_map] at hrow
  obtain ⟨orig, horig, rfl⟩ := hrow
  rw [normalizeRows_length]
  show rows.length ≤ (orig.data.map
    (fun c => if c = '#' then '#' else '.')).length
  rw [List.length_map]
  exact hlong orig horig

/-- C9 counterexample: `build_template_meta` accepts rows over characters
outside `{'.', '#'}` and non-square rows, silently producing a
`TemplateMeta` instead of a reported malformed-template failure; and on
rows shorter than the grid size the scan's list indexing goes out of
range (Python's `IndexError`, modelled by `none`), an unhandled crash
rather than a reported validation failure. -/
theorem build_template_meta_accepts_malformed :
    build_template_meta "t" ["AB", "CD"] =
      ⟨"t", ["AB", "CD"], [[false, false], [false, false]], []⟩ ∧
    build_template_meta "t" ["...", ".."] =
      ⟨"t", ["...", ".."], [[false, false, false], [false, false]], []⟩ ∧
    build_template_meta_opt "t" ["AB", "CD"] =
      some ⟨"t", ["AB", "CD"], [[false, false], [false, false]], []⟩ ∧
    build_template_meta_opt "t" ["...", ".."] =
      some ⟨"t", ["...", ".."], [[false, false, false], [false, false]], []⟩ ∧
    build_template_meta_opt "t" ["...", "..", "..."] = none := by
  exact ⟨by decide, by decide, by decide, by decide, by decide⟩

/-- C9 amended: `build_template_meta` performs no input validation and
reports no malformed-template error. Whenever every row has at least as
many characters as there are rows — so every list access of the scan is
in range and the source cannot raise — it returns a `TemplateMeta`
echoing the template id and rows, marking exactly the `'#'` cells as
blocks (every other character, in-alphabet or not, treated as open), and
its output is unchanged when every non-`'#'` character is replaced by
`'.'`.  `build_template_meta_opt` is the same scan under Python's partial
list indexing; its success here shows no error path is taken on these
inputs. -/
theorem build_template_meta_no_validation (template_id : String)
    (rows : List String)
    (hlong : ∀ row ∈ rows, rows.length ≤ row.data.length) :
    build_template_meta_opt template_id rows =
      some (build_template_meta template_id rows) ∧
    (build_template_meta template_id rows).template_id = template_id ∧
    (build_template_meta template_id rows).rows = rows ∧
    (build_template_meta template_id rows).blocks =
      rows.map (fun r => r.data.map (fun c => c == '#')) ∧
    build_template_meta_opt template_id (normalizeRows rows) =
      some ⟨template_id, normalizeRows rows,
        (build_template_meta template_id rows).blocks,
        (build_template_meta template_id rows).slots⟩ := by
  refine ⟨build_template_meta_opt_eq template_id rows hlong, rfl, rfl, rfl,
    ?_⟩
  rw [build_template_meta_opt_eq template_id (normalizeRows rows)
    (normalizeRows_long rows hlong), build_template_meta_normalize]

/-- Witness for the amended C9 theorem at the alphabet-violating rows
`["AB", "CD"]` (every row long enough, so the scan stays in range). -/
theorem build_template_meta_no_validation_witness :
    build_template_meta_opt "t" ["AB", "CD"] =
      some (build_template_meta "t" ["AB", "CD"]) ∧
    (build_template_meta "t" ["AB", "CD"]).template_id = "t" ∧
    (build_template_meta "t" ["AB", "CD"]).rows = ["AB", "CD"] ∧
    (build_template_meta "t" ["AB", "CD"]).blocks =
      (["AB", "CD"] : List String).map
        (fun r => r.data.map (fun c => c == '#')) ∧
    build_template_meta_opt "t" (normalizeRows ["AB", "CD"]) =
      some ⟨"t", normalizeRows ["AB", "CD"],
        (build_template_meta "t" ["AB", "CD"]).blocks,
        (build_template_meta "t" ["AB", "CD"]).slots⟩ :=
  build_template_meta_no_validation "t" ["AB", "CD"] (by decide)

/-! ## Lexicon ingestion (source lines 423-446, `main`)

Each JSON entry is modelled as a `RawEntry` after the `str(...)` /
`bool(...)` coercions and `get` defaults; `entries_by_answer` and
`words_by_length` mirror the two dictionaries `main` builds from the
entries payload. -/

/-- A raw lexicon entry as read from the bank JSON (fields after the
`str`/`bool` coercions; `get` defaults applied). -/
structure RawEntry where
  answer : String
  clueOptions : List String
  difficulty : String
  themeTags : List String
  isModern : Bool
deriving DecidableEq, Repr

/-- Python `str.upper()` on the ASCII answers. -/
def strUpper (s : String) : String :=
  String.mk (s.data.map Char.toUpper)

/-- Python `str.isalpha()`: nonempty and all-alphabetic. -/
def str_isalpha (s : String) : Bool :=
  !s.data.isEmpty && s.data.all Char.isAlpha

/-- `tuple(str(c) for c in raw.get("clueOptions", []) if str(c).strip())`
(source line 428): the clue options whose stripped form is non-empty. -/
def cleanClues (cs : List String) : List String :=
  cs.filter (fun c => !c.trim.data.isEmpty)

/-- The three `continue` guards of source lines 429-434: the (uppercased)
answer is alphabetic, of length 3 or 5, and has a surviving clue. -/
def entryAccepted (raw : RawEntry) : Bool :=
  str_isalpha (strUpper raw.answer) &&
    (decide ((strUpper raw.answer).data.length = 3) ||
      decide ((strUpper raw.answer).data.length = 5)) &&
    !(cleanClues raw.clueOptions).isEmpty

/-- The `EntryMeta(...)` constructor call of source lines 435-441. -/
def mkEntryMeta (raw : RawEntry) : EntryMeta :=
  ⟨strUpper raw.answer, cleanClues raw.clueOptions, raw.difficulty,
    raw.themeTags, raw.isModern⟩

/-- One iteration of the ingestion loop (source lines 426-443):
an accepted entry overwrites `entries_by_answer[answer]` and appends
`answer` to `words_by_length[len(answer)]`. -/
def entryStep (acc : (String → Option EntryMeta) × (ℕ → List Word))
    (raw : RawEntry) : (String → Option EntryMeta) × (ℕ → List Word) :=
  if entryAccepted raw then
    (fun a => if a = strUpper raw.answer then some (mkEntryMeta raw)
      else acc.1 a,
     fun n => if n = (strUpper raw.answer).data.length then
      acc.2 n ++ [strUpper raw.answer] else acc.2 n)
  else acc

def entries_by_answer (raws : List RawEntry) : String → Option EntryMeta :=
  (raws.foldl entryStep (fun _ => none, fun _ => [])).1

def words_by_length_raw (raws : List RawEntry) : ℕ → List Word :=
  (raws.foldl entryStep (fun _ => none, fun _ => [])).2

/-- `words_by_length[length] = sorted(set(words_by_length[length]))`
(source lines 444-445); Python `sorted(set(...))` is modelled as sorting
the deduplicated list. -/
def words_by_length (raws : List RawEntry) (n : ℕ) : List Word :=
  List.insertionSort wordLe (words_by_length_raw raws n).dedup

theorem foldl_const_last {α β : Type} (f : α → β) :
    ∀ (l : List α) (b : β),
      l.foldl (fun _ r => f r) b = l.getLast?.elim b f
  | [], _ => rfl
  | [_], _ => rfl
  | a :: c :: l2, b => by
    rw [List.foldl_cons, foldl_const_last f (c :: l2) (f a),
      List.getLast?_cons_cons]
    rcases h : (c :: l2).getLast? with _ | x
    · simp at h
    · rfl

theorem entryStep_foldl (raws : List RawEntry) :
    ∀ (acc : (String → Option EntryMeta) × (ℕ → List Word)) (w : String)
      (n : ℕ),
      ((raws.foldl entryStep acc).1 w =
        (raws.filter (fun raw => entryAccepted raw &&
          decide (strUpper raw.answer = w))).foldl
          (fun _ r => some (mkEntryMeta r)) (acc.1 w)) ∧
      ((raws.foldl entryStep acc).2 n =
        acc.2 n ++ (raws.filter (fun raw => entryAccepted raw &&
          decide ((strUpper raw.answer).data.length = n))).map
          (fun raw => strUpper raw.answer)) := by
  induction raws with
  | nil => intro acc w n; exact ⟨rfl, (List.append_nil _).symm⟩
  | cons raw rest ih =>
    intro acc w n
    rw [List.foldl_cons]
    by_cases hacc : entryAccepted raw = true
    · constructor
      · rw [(ih (entryStep acc raw) w n).1]
        by_cases hw : strUpper raw.answer = w
        · have hpred : (entryAccepted raw &&
              decide (strUpper raw.answer = w)) = true := by
            simp [hacc, hw]
          rw [List.filter_cons, if_pos hpred, List.foldl_cons]
          have h1 : (entryStep acc raw).1 w = some (mkEntryMeta raw) := by
            rw [entryStep, if_pos hacc]
            show (if w = strUpper raw.answer then some (mkEntryMeta raw)
              else acc.1 w) = _
            exact if_pos hw.symm
          rw [h1]
        · have hpred : ¬ ((entryAccepted raw &&
              decide (strUpper raw.answer = w)) = true) := by
            simp [hw]
          rw [List.filter_cons, if_neg hpred]
          have h1 : (entryStep acc raw).1 w = acc.1 w := by
            rw [entryStep, if_pos hacc]
            show (if w = strUpper raw.answer then some (mkEntryMeta raw)
              else acc.1 w) = _
            exact if_neg (fun hww => hw hww.symm)
          rw [h1]
      · rw [(ih (entryStep acc raw) w n).2]
        by_cases hn : (strUpper raw.answer).data.length = n
        · have hpred : (entryAccepted raw &&
              decide ((strUpper raw.answer).data.length = n)) = true := by
            simp [hacc, hn]
          rw [List.filter_cons, if_pos hpred, List.map_cons]
          have h2 : (entryStep acc raw).2 n =
              acc.2 n ++ [strUpper raw.answer] := by
            rw [entryStep, if_pos hacc]
            show (if n = (strUpper raw.answer).data.length then
              acc.2 n ++ [strUpper raw.answer] else acc.2 n) = _
            exact if_pos hn.symm
          rw [h2, List.append_assoc]
          rfl
        · have hpred : ¬ ((entryAccepted raw &&
              decide ((strUpper raw.answer).data.length = n)) = true) := by
            rw [Bool.and_eq_true, decide_eq_true_eq]
            exact fun hc => hn hc.2
          rw [List.filter_cons, if_neg hpred]
          have h2 : (entryStep acc raw).2 n = acc.2 n := by
            rw [entryStep, if_pos hacc]
            show (if n = (strUpper raw.answer).data.length then
              acc.2 n ++ [strUpper raw.answer] else acc.2 n) = _
            exact if_neg (fun hnn => hn hnn.symm)
          rw [h2]
    · have hstep : entryStep acc raw = acc := by
        rw [entryStep, if_neg hacc]
      rw [hstep]
      constructor
      · rw [(ih acc w n).1, List.filter_cons, if_neg (by simp [hacc])]
      · rw [(ih acc w n).2, List.filter_cons, if_neg (by simp [hacc])]

/-- C10: the word list for each length holds exactly the uppercased
accepted answers (alphabetic, length 3 or 5, at least one non-blank clue
option) of that length, each at most once, sorted ascending; rejected
entries are silently dropped (they leave no trace in either structure);
and for a duplicated answer the LAST accepted entry supplies the
metadata. -/
theorem lexicon_words_exact (raws : List RawEntry) (n : ℕ) (w : Word) :
    (w ∈ words_by_length raws n ↔
      w.data.length = n ∧ ∃ raw ∈ raws, entryAccepted raw = true ∧
        strUpper raw.answer = w) ∧
    (words_by_length raws n).Nodup ∧
    List.Sorted wordLe (words_by_length raws n) ∧
    entries_by_answer raws w =
      ((raws.filter (fun raw => entryAccepted raw &&
        decide (strUpper raw.answer = w))).getLast?).map mkEntryMeta := by
  have hraw : words_by_length_raw raws n =
      (raws.filter (fun raw => entryAccepted raw &&
        decide ((strUpper raw.answer).data.length = n))).map
        (fun raw => strUpper raw.answer) := by
    have h := (entryStep_foldl raws (fun _ => none, fun _ => []) w n).2
    rw [List.nil_append] at h
    exact h
  refine ⟨?_, ?_, ?_, ?_⟩
  · rw [words_by_length, (List.perm_insertionSort wordLe _).mem_iff,
      List.mem_dedup, hraw, List.mem_map]
    constructor
    · rintro ⟨raw, hmem, hup⟩
      rw [List.mem_filter, Bool.and_eq_true, decide_eq_true_eq] at hmem
      exact ⟨hup ▸ hmem.2.2, raw, hmem.1, hmem.2.1, hup⟩
    · rintro ⟨hlen, raw, hmem, hok, hup⟩
      exact ⟨raw, List.mem_filter.mpr ⟨hmem, by
        rw [Bool.and_eq_true, decide_eq_true_eq]
        exact ⟨hok, hup ▸ hlen⟩⟩, hup⟩
  · exact ((List.perm_insertionSort wordLe _).nodup_iff).mpr
      (List.nodup_dedup _)
  · exact List.sorted_insertionSort wordLe _
  · have h := (entryStep_foldl raws (fun _ => none, fun _ => []) w n).1
    rw [entries_by_answer, h, foldl_const_last]
    rcases hlast : (raws.filter (fun raw => entryAccepted raw &&
        decide (strUpper raw.answer = w))).getLast? with _ | r
    · rfl
    · rfl

end MiniCrossword
